import Mathlib

set_option autoImplicit false

/-!
Shallow embedding of the textreflex `analyze` pipeline (src/app.py):
the model-fallback orchestrator, the response envelope unwrapper, the
JSON extractor (markdown-fence stripping, direct parse, first-brace /
last-brace heuristic) and the result canonicalizer, together with the
claims about them.

Machine-level conventions: Python strings are `List Char`, JSON values
are the inductive `Json` below (numbers as mantissa/exponent pairs of
integers), Python dicts are insertion-ordered association lists with
unique keys, and raised-and-caught exceptions are explicit `Except`
values.
-/

/-- Characters that are awkward to write literally under the house style. -/
def bq : Char := Char.ofNat 96

def lb : Char := Char.ofNat 123

def rb : Char := Char.ofNat 125

/-- ASCII whitespace as recognised by Python `str.strip` and `re` `\s`
(space, tab, newline, carriage return, vertical tab, form feed). -/
def isSp (c : Char) : Bool :=
  c = ' ' || c = '\t' || c = '\n' || c = '\r' || c = Char.ofNat 11 || c = Char.ofNat 12

/-- JSON-grammar whitespace used by `json.loads` (space, tab, newline, CR). -/
def isJWs (c : Char) : Bool :=
  c = ' ' || c = '\t' || c = '\n' || c = '\r'

/-- JSON values as produced by `json.loads`.  Numbers are kept as a decimal
mantissa and power-of-ten exponent; objects are insertion-ordered
association lists. -/
inductive Json where
  | null
  | bool (b : Bool)
  | num (m : Int) (e : Int)
  | str (s : String)
  | arr (l : List Json)
  | obj (o : List (String × Json))

/-- Dict lookup (Python `d[k]` / `d.get(k)`), first matching key. -/
def lookupJ (o : List (String × Json)) (k : String) : Option Json :=
  (o.find? (fun p => p.1 == k)).map (fun p => p.2)

/-- Python `k in d` on a dict. -/
def hasKeyJ (o : List (String × Json)) (k : String) : Bool :=
  o.any (fun p => p.1 == k)

/-- Python dict insertion: an existing key keeps its position and gets the
new value, a fresh key is appended at the end. -/
def insertKey (o : List (String × Json)) (k : String) (v : Json) : List (String × Json) :=
  match o with
  | [] => [(k, v)]
  | (k2, v2) :: r => if k2 == k then (k2, v) :: r else (k2, v2) :: insertKey r k v

/-- Python truthiness (`if content:`) on a JSON value. -/
def truthy : Json → Bool
  | .null => false
  | .bool b => b
  | .num m _ => m != 0
  | .str s => !s.data.isEmpty
  | .arr l => !l.isEmpty
  | .obj o => !o.isEmpty

/-- Truthiness of a possibly-unset Python variable (`None` is falsy). -/
def truthyO : Option Json → Bool
  | none => false
  | some j => truthy j

def skipJWs (l : List Char) : List Char := l.dropWhile isJWs

def hexVal (c : Char) : Option Nat :=
  if '0' ≤ c ∧ c ≤ '9' then some (c.toNat - 48)
  else if 'a' ≤ c ∧ c ≤ 'f' then some (c.toNat - 87)
  else if 'A' ≤ c ∧ c ≤ 'F' then some (c.toNat - 55)
  else none

def digitsToNat (l : List Char) : Nat :=
  l.foldl (fun a c => a * 10 + (c.toNat - 48)) 0

/-- Escape decoder of `json.loads` (the `BACKSLASH` table plus `\uXXXX`
handling, surrogate code units rejected): given the character after the
backslash and the remaining input, yields the decoded character and the
input left after the escape sequence. -/
def escDecode (e : Char) (cs2 : List Char) : Option (Char × List Char) :=
  if e = '"' then some ('"', cs2)
  else if e = '\\' then some ('\\', cs2)
  else if e = '/' then some ('/', cs2)
  else if e = 'b' then some (Char.ofNat 8, cs2)
  else if e = 'f' then some (Char.ofNat 12, cs2)
  else if e = 'n' then some ('\n', cs2)
  else if e = 'r' then some ('\r', cs2)
  else if e = 't' then some ('\t', cs2)
  else if e = 'u' then
    match cs2 with
    | h1 :: h2 :: h3 :: h4 :: cs3 =>
      match hexVal h1, hexVal h2, hexVal h3, hexVal h4 with
      | some a, some b, some c2, some d =>
        let n := ((a * 16 + b) * 16 + c2) * 16 + d
        if 55296 ≤ n ∧ n < 57344 then none
        else some (Char.ofNat n, cs3)
      | _, _, _, _ => none
    | _ => none
  else none

/-- String-literal body scanner of `json.loads` (strict mode): stops at the
closing quote, decodes the standard escapes and `\uXXXX` (surrogate code
units rejected), and rejects raw control characters. -/
def pStrAux : Nat → List Char → List Char → Option (String × List Char)
  | 0, _, _ => none
  | _, _, [] => none
  | fuel + 1, acc, c :: cs =>
    if c = '"' then some (String.mk acc.reverse, cs)
    else if c = '\\' then
      match cs with
      | [] => none
      | e :: cs2 =>
        match escDecode e cs2 with
        | some (d, cs3) => pStrAux fuel (d :: acc) cs3
        | none => none
    else if c.toNat < 32 then none
    else pStrAux fuel (c :: acc) cs

/-- The `(\.\d+)?` group of `NUMBER_RE`: a fractional part that fails to
match leaves its text unconsumed. -/
def pFrac (rest1 : List Char) : List Char × List Char :=
  match rest1 with
  | '.' :: r2 =>
    let ds := r2.takeWhile Char.isDigit
    if ds.isEmpty then ([], rest1) else (ds, r2.dropWhile Char.isDigit)
  | _ => ([], rest1)

/-- The `([eE][-+]?\d+)?` group of `NUMBER_RE`: an exponent part that fails
to match leaves its text unconsumed. -/
def pExp (rest2 : List Char) : Int × List Char :=
  match rest2 with
  | e :: r3 =>
    if e = 'e' ∨ e = 'E' then
      match r3 with
      | '+' :: r4 =>
        let ds := r4.takeWhile Char.isDigit
        if ds.isEmpty then (0, rest2) else ((digitsToNat ds : Int), r4.dropWhile Char.isDigit)
      | '-' :: r4 =>
        let ds := r4.takeWhile Char.isDigit
        if ds.isEmpty then (0, rest2) else (-(digitsToNat ds : Int), r4.dropWhile Char.isDigit)
      | r4 =>
        let ds := r4.takeWhile Char.isDigit
        if ds.isEmpty then (0, rest2) else ((digitsToNat ds : Int), r4.dropWhile Char.isDigit)
    else (0, rest2)
  | [] => (0, rest2)

/-- Fraction and exponent groups plus mantissa assembly, applied after the
mandatory integer part of `NUMBER_RE` has matched. -/
def pNumTail (neg : Bool) (iv : Nat) (rest1 : List Char) : Json × List Char :=
  let fs := (pFrac rest1).1
  let rest2 := (pFrac rest1).2
  let expRes := pExp rest2
  let mant0 : Nat := iv * 10 ^ fs.length + digitsToNat fs
  let m : Int := if neg then -(mant0 : Int) else (mant0 : Int)
  (.num m (expRes.1 - fs.length), expRes.2)

/-- Number scanner mirroring the `NUMBER_RE` of `json.scanner`:
`(-?(?:0|[1-9]\d*))(\.\d+)?([eE][-+]?\d+)?`; optional groups that fail to
match leave their text unconsumed. -/
def pNum (l : List Char) : Option (Json × List Char) :=
  let sign : Bool × List Char :=
    match l with
    | c :: r => if c = '-' then (true, r) else (false, l)
    | [] => (false, l)
  match sign.2 with
  | [] => none
  | c :: r =>
    if c = '0' then some (pNumTail sign.1 0 r)
    else if c.isDigit then
      some (pNumTail sign.1 (digitsToNat ((c :: r).takeWhile Char.isDigit))
        ((c :: r).dropWhile Char.isDigit))
    else none

/-- Parser state: at a value, inside an array member list, or inside an
object member list (positioned at a key). -/
inductive PMode where
  | val
  | arrMember (acc : List Json)
  | objMember (acc : List (String × Json))

/-- Recursive-descent value scanner of `json.loads` (fuelled; fuel is
ample for every input it is run on). -/
def pStep : Nat → PMode → List Char → Option (Json × List Char)
  | 0, _, _ => none
  | fuel + 1, .val, l =>
    match l with
    | [] => none
    | c :: r =>
      if c = '"' then
        match pStrAux (r.length + 1) [] r with
        | some (s, rest) => some (.str s, rest)
        | none => none
      else if c = lb then
        let r2 := skipJWs r
        match r2 with
        | c2 :: r3 => if c2 = rb then some (.obj [], r3) else pStep fuel (.objMember []) r2
        | [] => none
      else if c = '[' then
        let r2 := skipJWs r
        match r2 with
        | c2 :: r3 => if c2 = ']' then some (.arr [], r3) else pStep fuel (.arrMember []) r2
        | [] => none
      else if c = 't' then
        match r with
        | 'r' :: 'u' :: 'e' :: rest => some (.bool true, rest)
        | _ => none
      else if c = 'f' then
        match r with
        | 'a' :: 'l' :: 's' :: 'e' :: rest => some (.bool false, rest)
        | _ => none
      else if c = 'n' then
        match r with
        | 'u' :: 'l' :: 'l' :: rest => some (.null, rest)
        | _ => none
      else if c = '-' ∨ c.isDigit then pNum l
      else none
  | fuel + 1, .arrMember acc, l =>
    match pStep fuel .val l with
    | none => none
    | some (v, r) =>
      match skipJWs r with
      | ',' :: r2 => pStep fuel (.arrMember (v :: acc)) (skipJWs r2)
      | c :: r2 => if c = ']' then some (.arr (v :: acc).reverse, r2) else none
      | [] => none
  | fuel + 1, .objMember acc, l =>
    match l with
    | '"' :: r =>
      match pStrAux (r.length + 1) [] r with
      | none => none
      | some (k, r1) =>
        match skipJWs r1 with
        | ':' :: r2 =>
          match pStep fuel .val (skipJWs r2) with
          | none => none
          | some (v, r3) =>
            match skipJWs r3 with
            | ',' :: r4 =>
              match skipJWs r4 with
              | '"' :: r5 => pStep fuel (.objMember (insertKey acc k v)) ('"' :: r5)
              | _ => none
            | c :: r4 => if c = rb then some (.obj (insertKey acc k v), r4) else none
            | [] => none
        | _ => none
    | _ => none

/-- `json.loads`: skip surrounding whitespace, scan one value, and require
that nothing but whitespace follows; `none` models a raised
`json.JSONDecodeError`. -/
def parseDoc (l : List Char) : Option Json :=
  match pStep (2 * l.length + 8) .val (skipJWs l) with
  | some (v, rest) => if (skipJWs rest).isEmpty then some v else none
  | none => none

/-- Try to consume a literal ``` at the head. -/
def ticksAt : List Char → Option (List Char)
  | c1 :: c2 :: c3 :: r => if c1 = bq ∧ c2 = bq ∧ c3 = bq then some r else none
  | _ => none

/-- The optional `(?:json)?` tag of the opening-fence regex. -/
def dropJsonTag : List Char → List Char
  | c1 :: c2 :: c3 :: c4 :: r =>
    if c1 = 'j' ∧ c2 = 's' ∧ c3 = 'o' ∧ c4 = 'n' then r else c1 :: c2 :: c3 :: c4 :: r
  | l => l

/-- Greedy `\s*` consumption that remembers the last character dropped
(needed to know whether the position after the match is a line start). -/
def dropSpKeepLast : List Char → Option Char → List Char × Option Char
  | [], p => ([], p)
  | c :: r, p => if isSp c then dropSpKeepLast r (some c) else (c :: r, p)

/-- One match of `^```(?:json)?\s*\n?` (the trailing `\n?` is subsumed by
the greedy `\s*`).  Returns the rest of the string and whether the next
position is again a line start. -/
def matchFence (l : List Char) : Option (List Char × Bool) :=
  match ticksAt l with
  | none => none
  | some r1 =>
    let r := dropSpKeepLast (dropJsonTag r1) none
    some (r.1, r.2 == some '\n')

/-- `re.sub(r'^```(?:json)?\s*\n?', '', text, flags=re.MULTILINE)`: scan
left to right, at every line start try the fence pattern and drop the
match.  The `Bool` says whether the current position is a line start.
Fuelled; `sub1` supplies ample fuel. -/
def sub1F : Nat → Bool → List Char → List Char
  | 0, _, l => l
  | _, _, [] => []
  | fuel + 1, ls, c :: cs =>
    if ls then
      match matchFence (c :: cs) with
      | some (rest, ls2) => sub1F fuel ls2 rest
      | none => c :: sub1F fuel (c = '\n') cs
    else c :: sub1F fuel (c = '\n') cs

def sub1 (l : List Char) : List Char := sub1F (l.length + 1) true l

/-- Suffix of a whitespace run starting at its last `'\n'` (the point
where a MULTILINE `$` can hold), if any. -/
def lastNlSplit : List Char → Option (List Char)
  | [] => none
  | c :: r =>
    match lastNlSplit r with
    | some s => some s
    | none => if c = '\n' then some (c :: r) else none

/-- One match of ` ```\s*$ ` at the current position: after the backticks,
greedy `\s*` backtracks to the rightmost point where `$` holds (end of
input, or just before a `'\n'`, which stays unconsumed). -/
def match2core (l : List Char) : Option (List Char) :=
  match ticksAt l with
  | none => none
  | some r =>
    let run := r.takeWhile isSp
    let after := r.dropWhile isSp
    if after.isEmpty then some []
    else
      match lastNlSplit run with
      | some s => some (s ++ after)
      | none => none

/-- One match of `\n?```\s*$` (a leading `'\n'` is consumed when the
backticks follow it directly). -/
def match2 : List Char → Option (List Char)
  | [] => none
  | c :: cs => if c = '\n' then match2core cs else match2core (c :: cs)

/-- `re.sub(r'\n?```\s*$', '', text, flags=re.MULTILINE)` (fuelled). -/
def sub2F : Nat → List Char → List Char
  | 0, l => l
  | _, [] => []
  | fuel + 1, c :: cs =>
    match match2 (c :: cs) with
    | some rest => sub2F fuel rest
    | none => c :: sub2F fuel cs

def sub2 (l : List Char) : List Char := sub2F (l.length + 1) l

/-- Whether a triple backtick occurs anywhere in the text (the trigger
both fence regexes need). -/
def containsTicks : List Char → Bool
  | [] => false
  | c :: cs => (ticksAt (c :: cs)).isSome || containsTicks cs

/-- Wrap a text in a markdown code fence tagged `json`. -/
def wrapFence (s : List Char) : List Char := "```json\n".data ++ s ++ "\n```".data

/-- Python `str.strip()`. -/
def stripL (l : List Char) : List Char :=
  List.rdropWhile isSp (l.dropWhile isSp)

/-- The fence-stripping step of the extractor (lines 182-184): both
`re.sub` passes followed by `strip`. -/
def fenceStrip (l : List Char) : List Char := stripL (sub2 (sub1 l))

/-- Errors of the extraction step, each carrying the `raw_response`
excerpt the endpoint returns with it. -/
inductive ExErr where
  | malformed (excerpt : List Char)
  | noJSON (excerpt : List Char)

/-- The first-`{` / last-`}` candidate of the extractor: indices of the
first opening and last closing brace when the latter is strictly after
the former (`json_start != -1 and json_end != -1 and json_end > json_start`). -/
def bracePairIdx (u : List Char) : Option (Nat × Nat) :=
  match u.findIdx? (fun c => c = lb), u.reverse.findIdx? (fun c => c = rb) with
  | some i, some k =>
    let j := u.length - 1 - k
    if i < j then some (i, j) else none
  | _, _ => none

def maxLogLen : Nat := 500

/-- Lines 186-208 on the already fence-stripped text: direct parse, then
the brace-pair substring, else the two parse failures with their bounded
`raw_response` excerpts. -/
def extractCore (u : List Char) : Except ExErr Json :=
  match parseDoc u with
  | some v => .ok v
  | none =>
    match bracePairIdx u with
    | some (i, j) =>
      match parseDoc ((u.drop i).take (j + 1 - i)) with
      | some v => .ok v
      | none => .error (.malformed (u.take maxLogLen))
    | none => .error (.noJSON (u.take maxLogLen))

/-- The whole `if result is None` block (lines 180-208): fence-strip,
strip, then `extractCore`. -/
def extractStage (t : List Char) : Except ExErr Json :=
  extractCore (fenceStrip t)

/-- Balanced-brace scan over `reasoning_content` (lines 153-163): find the
first `{`, then keep a depth counter and cut at the matching `}`. -/
def scanLoop : List Char → Nat → List Char → Option (List Char)
  | [], _, _ => none
  | c :: cs, n, acc =>
    if c = lb then scanLoop cs (n + 1) (c :: acc)
    else if c = rb then
      if n = 1 then some ((c :: acc).reverse)
      else scanLoop cs (n - 1) (c :: acc)
    else scanLoop cs n (c :: acc)

def braceScan : List Char → Option (List Char)
  | [] => none
  | c :: cs => if c = lb then scanLoop cs 1 [c] else braceScan cs

/-- Brace-balance bookkeeping for the text between an object's outer
braces: starting at depth `n`, the depth never returns to zero inside and
is exactly one just before the final closing brace. -/
def depthOk : Nat → List Char → Bool
  | n, [] => n == 1
  | n, c :: cs =>
    if c = lb then depthOk (n + 1) cs
    else if c = rb then decide (2 ≤ n) && depthOk (n - 1) cs
    else depthOk n cs

/-- An exception inside the envelope-probing `try` block: either one of
the caught classes (KeyError, IndexError, TypeError, ValueError,
JSONDecodeError) or an uncaught one (AttributeError), which escapes to
the outer handler. -/
inductive Exc where
  | caught
  | uncaught

/-- `parsed_response['choices'][0].get('message', {}).get('content', '')`
with Python's exception behaviour on every possible shape of `choices`. -/
def pyChoicesContent : Json → Except Exc (Option Json)
  | .arr [] => .error .caught
  | .arr (e :: _) =>
    match e with
    | .obj eo =>
      match (lookupJ eo "message").getD (.obj []) with
      | .obj mo => .ok (some ((lookupJ mo "content").getD (.str "")))
      | _ => .error .uncaught
    | _ => .error .uncaught
  | .obj _ => .error .caught
  | .str s => if s.data.isEmpty then .error .caught else .error .uncaught
  | _ => .error .caught

/-- The value of the `ai_content` variable: normally a Python string, but
a truthy non-string nested `content` value makes it a JSON value (which
the later `re.sub` would choke on). -/
inductive AiV where
  | s (t : List Char)
  | j (v : Json)

/-- The four-key schema test of line 171. -/
def hasAll4 (o : List (String × Json)) : Bool :=
  ["ratings", "passages", "conclusion", "bs_callout"].all (fun k => hasKeyJ o k)

/-- Lines 135-172: the envelope-probing block run when the body parsed to
a dict, with its sequence of content probes (`choices[0].message.content`,
top-level `content`, balanced-brace scan of `reasoning_content`), the
`ai_content` reassignment, and the four-key direct-schema test.  Raised
exceptions abort the remaining steps. -/
def unwrapDict (o : List (String × Json)) (ai0 : List Char) : Except Exc (Option Json × AiV) := do
  let c1 : Option Json ←
    if hasKeyJ o "choices" then pyChoicesContent ((lookupJ o "choices").getD .null)
    else pure none
  let c2 : Option Json :=
    if !truthyO c1 && hasKeyJ o "content" then lookupJ o "content" else c1
  let c3 : Option Json ←
    if !truthyO c2 && hasKeyJ o "reasoning_content" then
      match (lookupJ o "reasoning_content").getD .null with
      | .str r =>
        pure (match braceScan r.data with
          | some ex => some (.str (String.mk ex))
          | none => c2)
      | _ => .error .uncaught
    else pure c2
  let ai : AiV :=
    if truthyO c3 then
      match c3 with
      | some (.str t) => .s t.data
      | some j => .j j
      | none => .s ai0
    else .s ai0
  let res : Option Json := if hasAll4 o then some (.obj o) else none
  pure (res, ai)

/-- Lines 129-177: strip the body, try `json.loads`, probe dict envelopes;
caught exceptions fall through with `result = None` and `ai_content`
untouched, uncaught ones (`.error ()`) escape to the outer handler. -/
def stage1 (ai0 : List Char) : Except Unit (Option Json × AiV) :=
  match parseDoc ai0 with
  | none => .ok (none, .s ai0)
  | some (.obj o) =>
    match unwrapDict o ai0 with
    | .ok r => .ok r
    | .error .caught => .ok (none, .s ai0)
    | .error .uncaught => .error ()
  | some _ => .ok (none, .s ai0)

/-- The six schema fields with the defaults lines 210-220 substitute for
them when absent. -/
def canonDefaults : List (String × Json) :=
  [("ratings", .obj []), ("passages", .obj []), ("conclusion", .str "N/A"),
   ("bs_callout", .str "N/A"), ("bs_passage", .str ""), ("top_passages", .arr [])]

/-- Append a default for an absent key (Python `if k not in d: d[k] = v`). -/
def fillDefault (o : List (String × Json)) (k : String) (v : Json) : List (String × Json) :=
  if hasKeyJ o k then o else o ++ [(k, v)]

/-- Lines 210-220 on a dict result: fill every absent schema field with
its default, leaving present fields untouched. -/
def canonicalize (o : List (String × Json)) : List (String × Json) :=
  canonDefaults.foldl (fun acc kv => fillDefault acc kv.1 kv.2) o

/-- Substring test (Python `needle in haystack` on strings). -/
def containsSub (pat : List Char) : List Char → Bool
  | [] => pat.isEmpty
  | c :: cs => pat.isPrefixOf (c :: cs) || containsSub pat cs

/-- Lines 210-220 run on an arbitrary result value, with Python's
behaviour when it is not a dict: `in` on a list is element membership and
on a string a substring test, and the subsequent item assignment for a
missing field raises a TypeError (uncaught, `.error ()`); non-container
values raise immediately. -/
def canonStep : Json → Except Unit Json
  | .obj o => .ok (.obj (canonicalize o))
  | .arr l =>
    if (canonDefaults.map (fun kv => kv.1)).all
        (fun f => l.any (fun e => match e with | .str s => s == f | _ => false))
    then .ok (.arr l) else .error ()
  | .str s =>
    if (canonDefaults.map (fun kv => kv.1)).all (fun f => containsSub f.data s.data)
    then .ok (.str s) else .error ()
  | _ => .error ()

/-- The retryable failure causes recorded in `last_error` by the fallback
loop, each remembering the model name it mentions. -/
inductive Cause where
  | timeout (model : String)
  | reqError (model : String)
  | notFound (model : String)

/-- The possible replies of the endpoint, error replies tagged with the
text they carry. -/
inductive Outcome where
  | ok (v : Json)
  | allModelsFailed (last : Option Cause)
  | providerError (status : Nat) (details : List Char)
  | malformedJSON (excerpt : List Char)
  | noJSONFound (excerpt : List Char)
  | genericError

/-- Lines 179-222 after the envelope step: use the direct result if set,
otherwise run the extractor on `ai_content` (a non-string `ai_content`
makes `re.sub` raise, caught only by the outer generic handler), then
field-fill the result. -/
def afterUnwrap (r : Option Json) (ai : AiV) : Outcome :=
  match r with
  | some v =>
    match canonStep v with
    | .ok w => .ok w
    | .error _ => .genericError
  | none =>
    match ai with
    | .j _ => .genericError
    | .s t =>
      match extractStage t with
      | .ok v =>
        match canonStep v with
        | .ok w => .ok w
        | .error _ => .genericError
      | .error (.malformed ex) => .malformedJSON ex
      | .error (.noJSON ex) => .noJSONFound ex

/-- Processing of a successful (HTTP 200) body: lines 127-222. -/
def processBody (raw : List Char) : Outcome :=
  let ai0 := stripL raw
  match stage1 ai0 with
  | .error _ => .genericError
  | .ok (r, ai) => afterUnwrap r ai

/-- What one `requests.post` attempt for a model can produce: a timeout,
another transport error, or an HTTP response with status and body. -/
inductive CallResult where
  | timeout
  | reqError
  | resp (status : Nat) (body : List Char)

/-- Whether the fallback loop moves past this call result (timeout,
transport error, or HTTP 404). -/
def retryable : CallResult → Bool
  | .timeout => true
  | .reqError => true
  | .resp st _ => st == 404

/-- The `last_error` value the loop records for a retryable result. -/
def causeOfR (m : String) : CallResult → Option Cause
  | .timeout => some (.timeout m)
  | .reqError => some (.reqError m)
  | .resp st _ => if st == 404 then some (.notFound m) else none

/-- The fallback loop of lines 84-114: walk the candidate list, record
`last_error` and keep the last response on 404/timeout/transport error,
break on the first non-404 response.  Returns the final `response`,
`last_error`, and the list of models actually tried, in order. -/
def orch (probe : String → CallResult) :
    List String → Option Cause → Option (Nat × List Char) →
    Option (Nat × List Char) × Option Cause × List String
  | [], lc, lr => (lr, lc, [])
  | m :: ms, lc, lr =>
    match probe m with
    | .timeout =>
      let r := orch probe ms (some (.timeout m)) lr
      (r.1, r.2.1, m :: r.2.2)
    | .reqError =>
      let r := orch probe ms (some (.reqError m)) lr
      (r.1, r.2.1, m :: r.2.2)
    | .resp st b =>
      if st == 404 then
        let r := orch probe ms (some (.notFound m)) (some (st, b))
        (r.1, r.2.1, m :: r.2.2)
      else (some (st, b), lc, [m])

/-- Lines 84-222: run the fallback loop, then classify the final
response: none-or-404 is the all-models-failed error carrying
`last_error`, another non-200 status is surfaced as a provider error with
the full body text, and a 200 body goes on to unwrap/extract/canonicalize.
Also returns the models tried. -/
def runPipeline (probe : String → CallResult) (models : List String) : Outcome × List String :=
  let r := orch probe models none none
  match r.1 with
  | none => (.allModelsFailed r.2.1, r.2.2)
  | some (st, b) =>
    if st == 404 then (.allModelsFailed r.2.1, r.2.2)
    else if st == 200 then (processBody b, r.2.2)
    else (.providerError st b, r.2.2)

/-- A provider that always times out. -/
def probeT : String → CallResult := fun _ => .timeout

/-- A provider that always answers HTTP 503. -/
def probe503 : String → CallResult := fun _ => .resp 503 "oops".data

/-- A provider whose HTTP 500 body is 501 characters long. -/
def probe500big : String → CallResult := fun _ => .resp 500 (List.replicate 501 'x')

/-- A provider answering 200 with prose around an unparseable brace pair. -/
def probe200mal : String → CallResult := fun _ => .resp 200 "ab\x7b]\x7d".data

/-- The response body of the spec's balanced-brace test case. -/
def c6Body : List Char :=
  "\x7b\"reasoning_content\":\"thinking... \x7b\\\"a\\\":\x7b\\\"nested\\\":1\x7d,\\\"ratings\\\":\x7b\x7d,\\\"passages\\\":\x7b\x7d,\\\"bs_callout\\\":\\\"no\\\",\\\"conclusion\\\":\\\"z\\\"\x7d done\"\x7d".data

/-- An envelope whose `choices` is the empty array while `reasoning_content`
holds an extractable payload. -/
def c7Body : List Char :=
  "\x7b\"choices\":[],\"reasoning_content\":\"x \x7b\\\"conclusion\\\":\\\"z\\\"\x7d y\"\x7d".data

/-- A response body that is a JSON array containing an object. -/
def c9Body : List Char := "[\x7b\"a\":1\x7d]".data

/-- Lexical shape of text produced by the JSON grammar: every backtick
occurrence has some character (never a newline) directly before it and is
followed by a run of plain spaces ending at a non-whitespace character.
In a parseable document backticks only occur inside string literals,
whose bodies admit no raw control characters, which forces this shape. -/
def bqCtx (c : List Char) : Prop :=
  ∀ a b, c = a ++ bq :: b →
    ((∃ aL, a.getLast? = some aL ∧ aL ≠ '\n') ∧
     (∃ d b2, b.dropWhile (fun x => x = ' ') = d :: b2 ∧ isSp d = false))

/-- The text does not begin with a backtick. -/
def headNotBq (c : List Char) : Prop := ∀ d t, c = d :: t → d ≠ bq

/-- The only whitespace character occurring in the text is a plain space
(true of the raw body of a strict-mode JSON string literal). -/
def spSpaceOnly (c : List Char) : Prop := ∀ x ∈ c, isSp x = true → x = ' '

/-- No line of the text begins with ``` (the opening-fence regex can
never fire). -/
def noFenceLine (u : List Char) : Prop := ∀ a b, u = a ++ '\n' :: b → ticksAt b = none

/-- No suffix of the text matches the closing-fence pattern ```\s*$. -/
def noTrailFence (u : List Char) : Prop := ∀ a b, u = a ++ b → match2core b = none

/-- Characters that can occur in a `NUMBER_RE` match. -/
def numAlpha (x : Char) : Bool :=
  x.isDigit || x = '-' || x = '+' || x = '.' || x = 'e' || x = 'E'

/-- A text segment that is backtick-safe: every backtick in it sits in
fence-proof context and it does not begin with a backtick. -/
def okSeg (c : List Char) : Prop := bqCtx c ∧ headNotBq c

theorem hasKeyJ_eq_isSome (o : List (String × Json)) (k : String) :
    hasKeyJ o k = (lookupJ o k).isSome := by
  induction o with
  | nil => rfl
  | cons p r ih =>
    simp only [hasKeyJ, lookupJ, List.any_cons, List.find?_cons] at *
    by_cases h : p.1 == k
    · simp [h]
    · simp [h, ih]

theorem lookupJ_append_single (o : List (String × Json)) (k k2 : String) (v : Json) :
    lookupJ (o ++ [(k, v)]) k2 =
      match lookupJ o k2 with
      | some x => some x
      | none => if k == k2 then some v else none := by
  induction o with
  | nil =>
    by_cases hk : k == k2
    · simp [lookupJ, List.find?, hk]
    · simp [lookupJ, List.find?, hk]
  | cons p r ih =>
    simp only [lookupJ, List.cons_append, List.find?_cons] at *
    by_cases h : p.1 == k2
    · simp [h]
    · simp only [h, cond_false] at *
      exact ih

theorem hasKeyJ_append_single (o : List (String × Json)) (k k2 : String) (v : Json) :
    hasKeyJ (o ++ [(k, v)]) k2 = (hasKeyJ o k2 || (k == k2)) := by
  simp [hasKeyJ, List.any_append, List.any_cons]

theorem fillDefault_hasKey_self (o : List (String × Json)) (k : String) (v : Json) :
    hasKeyJ (fillDefault o k v) k = true := by
  unfold fillDefault
  by_cases h : hasKeyJ o k
  · simp [h]
  · simp [h, hasKeyJ_append_single]

theorem fillDefault_hasKey_mono (o : List (String × Json)) (k k2 : String) (v : Json)
    (h : hasKeyJ o k2 = true) : hasKeyJ (fillDefault o k v) k2 = true := by
  unfold fillDefault
  by_cases h2 : hasKeyJ o k
  · simp [h2, h]
  · simp [h2, hasKeyJ_append_single, h]

theorem fillDefault_hasKey_ne (o : List (String × Json)) (k k2 : String) (v : Json)
    (h : (k == k2) = false) : hasKeyJ (fillDefault o k v) k2 = hasKeyJ o k2 := by
  unfold fillDefault
  by_cases h2 : hasKeyJ o k
  · simp [h2]
  · simp [h2, hasKeyJ_append_single, h]

theorem fillDefault_lookup_of_has (o : List (String × Json)) (k k2 : String) (v : Json)
    (h : hasKeyJ o k2 = true) : lookupJ (fillDefault o k v) k2 = lookupJ o k2 := by
  unfold fillDefault
  by_cases h2 : hasKeyJ o k
  · simp [h2]
  · rw [hasKeyJ_eq_isSome] at h
    simp only [h2, if_neg, Bool.false_eq_true, not_false_iff, if_false, lookupJ_append_single]
    cases hl : lookupJ o k2 with
    | some x => rfl
    | none => rw [hl] at h; simp at h

theorem fillDefault_lookup_absent (o : List (String × Json)) (k : String) (v : Json)
    (h : hasKeyJ o k = false) : lookupJ (fillDefault o k v) k = some v := by
  unfold fillDefault
  rw [h]
  simp only [Bool.false_eq_true, if_false, lookupJ_append_single]
  rw [hasKeyJ_eq_isSome] at h
  cases hl : lookupJ o k with
  | some x => rw [hl] at h; simp at h
  | none => simp

theorem canonFold_pres (ds : List (String × Json)) :
    ∀ (o : List (String × Json)) (k : String), hasKeyJ o k = true →
      hasKeyJ (ds.foldl (fun acc kv => fillDefault acc kv.1 kv.2) o) k = true ∧
      lookupJ (ds.foldl (fun acc kv => fillDefault acc kv.1 kv.2) o) k = lookupJ o k := by
  induction ds with
  | nil => intro o k h; exact ⟨h, rfl⟩
  | cons d r ih =>
    intro o k h
    simp only [List.foldl_cons]
    have h1 := fillDefault_hasKey_mono o d.1 k d.2 h
    have h2 := fillDefault_lookup_of_has o d.1 k d.2 h
    have := ih (fillDefault o d.1 d.2) k h1
    exact ⟨this.1, this.2.trans h2⟩

theorem canonFold_sets (ds : List (String × Json)) :
    ∀ (o : List (String × Json)) (k : String) (v : Json),
      (ds.map Prod.fst).Nodup → (k, v) ∈ ds → hasKeyJ o k = false →
      lookupJ (ds.foldl (fun acc kv => fillDefault acc kv.1 kv.2) o) k = some v := by
  induction ds with
  | nil => intro o k v _ hm; cases hm
  | cons d r ih =>
    intro o k v hn hm habs
    simp only [List.foldl_cons]
    rcases List.mem_cons.mp hm with he | ht
    · subst he
      have h1 := fillDefault_lookup_absent o k v habs
      have h2 : hasKeyJ (fillDefault o k v) k = true := fillDefault_hasKey_self o k v
      have := canonFold_pres r (fillDefault o k v) k h2
      exact this.2.trans h1
    · have hne : (d.1 == k) = false := by
        have : k ∈ r.map Prod.fst := List.mem_map.mpr ⟨(k, v), ht, rfl⟩
        have hd := (List.nodup_cons.mp hn).1
        simp only [beq_eq_false_iff_ne, ne_eq]
        intro he; exact hd (he ▸ this)
      have habs2 : hasKeyJ (fillDefault o d.1 d.2) k = false :=
        (fillDefault_hasKey_ne o d.1 k d.2 hne).trans habs
      exact ih (fillDefault o d.1 d.2) k v (List.nodup_cons.mp hn).2 ht habs2

theorem canonFold_present (ds : List (String × Json)) :
    ∀ (o : List (String × Json)) (k : String) (v : Json), (k, v) ∈ ds →
      hasKeyJ (ds.foldl (fun acc kv => fillDefault acc kv.1 kv.2) o) k = true := by
  induction ds with
  | nil => intro o k v hm; cases hm
  | cons d r ih =>
    intro o k v hm
    simp only [List.foldl_cons]
    rcases List.mem_cons.mp hm with he | ht
    · subst he
      by_cases h : hasKeyJ (fillDefault o k v) k = true
      · exact (canonFold_pres r (fillDefault o k v) k h).1
      · exact absurd (fillDefault_hasKey_self o k v) h
    · exact ih (fillDefault o d.1 d.2) k v ht

/-- C1: every object given to the canonicalization step comes back with
all six schema fields present; an absent field is filled with exactly the
default named for it in `canonDefaults` (empty mapping for `ratings` and
`passages`, `"N/A"` for `conclusion` and `bs_callout`, `""` for
`bs_passage`, empty sequence for `top_passages`), and every field that
was already present keeps exactly its old value. -/
theorem c1_canonicalize_defaults (o : List (String × Json)) :
    (∀ kv ∈ canonDefaults, hasKeyJ (canonicalize o) kv.1 = true) ∧
    (∀ kv ∈ canonDefaults, hasKeyJ o kv.1 = false → lookupJ (canonicalize o) kv.1 = some kv.2) ∧
    (∀ k, hasKeyJ o k = true → lookupJ (canonicalize o) k = lookupJ o k) := by
  unfold canonicalize
  refine ⟨?_, ?_, ?_⟩
  · intro kv hm
    exact canonFold_present canonDefaults o kv.1 kv.2 (by simpa using hm)
  · intro kv hm habs
    exact canonFold_sets canonDefaults o kv.1 kv.2 (by decide) (by simpa using hm) habs
  · intro k h
    exact (canonFold_pres canonDefaults o k h).2

/-- Witness for C1 at a concrete object: a present `ratings` field (even
of the wrong shape) is kept unchanged, and the absent `conclusion` is
filled with `"N/A"`. -/
theorem c1_canonicalize_defaults_witness :
    lookupJ (canonicalize [("ratings", Json.str "keep")]) "conclusion" = some (Json.str "N/A") ∧
    lookupJ (canonicalize [("ratings", Json.str "keep")]) "ratings" = some (Json.str "keep") := by
  constructor
  · exact (c1_canonicalize_defaults [("ratings", Json.str "keep")]).2.1
      ("conclusion", Json.str "N/A") (by simp [canonDefaults]) (by decide)
  · exact ((c1_canonicalize_defaults [("ratings", Json.str "keep")]).2.2 "ratings"
      (by decide)).trans rfl

/-- C10: the balanced-brace scan counts every literal brace, including
braces inside JSON string literals: on a reasoning text whose embedded
object holds a closing brace inside a string value, the extracted
substring stops at that brace and is not parseable JSON. -/
theorem c10_braceScan_counts_string_braces :
    braceScan "pre \x7b\"a\":\"x\x7dy\"\x7d post".data = some "\x7b\"a\":\"x\x7d".data ∧
    parseDoc "\x7b\"a\":\"x\x7d".data = none := ⟨rfl, rfl⟩

theorem orch_tried_prefix (probe : String → CallResult) (ms : List String) :
    ∀ lc lr, (orch probe ms lc lr).2.2 <+: ms := by
  induction ms with
  | nil => intro lc lr; exact ⟨[], rfl⟩
  | cons m r ih =>
    intro lc lr
    cases hp : probe m with
    | timeout =>
      obtain ⟨t, ht⟩ := ih (some (.timeout m)) lr
      exact ⟨t, by simp [orch, hp, ht]⟩
    | reqError =>
      obtain ⟨t, ht⟩ := ih (some (.reqError m)) lr
      exact ⟨t, by simp [orch, hp, ht]⟩
    | resp st b =>
      by_cases h4 : st == 404
      · obtain ⟨t, ht⟩ := ih (some (.notFound m)) (some (st, b))
        exact ⟨t, by simp [orch, hp, h4, ht]⟩
      · exact ⟨r, by simp [orch, hp, h4]⟩

theorem orch_all_retryable (probe : String → CallResult) (ms : List String) :
    ∀ lc lr, (∀ m ∈ ms, retryable (probe m) = true) →
      (∀ st b, lr = some (st, b) → st = 404) →
      (orch probe ms lc lr).2.2 = ms ∧
      (∀ st b, (orch probe ms lc lr).1 = some (st, b) → st = 404) ∧
      (orch probe ms lc lr).2.1 = (match ms.getLast? with
        | none => lc
        | some m2 => causeOfR m2 (probe m2)) := by
  induction ms with
  | nil => intro lc lr _ hinv; exact ⟨rfl, fun st b h => hinv st b h, rfl⟩
  | cons m r ih =>
    intro lc lr hret hinv
    have hret1 : retryable (probe m) = true := hret m (List.mem_cons_self m r)
    have hretr : ∀ m2 ∈ r, retryable (probe m2) = true := fun m2 hm => hret m2 (List.mem_cons_of_mem m hm)
    cases hp : probe m with
    | timeout =>
      obtain ⟨h1, h2, h3⟩ := ih (some (.timeout m)) lr hretr hinv
      refine ⟨by simp [orch, hp, h1], by simpa [orch, hp] using h2, ?_⟩
      simp only [orch, hp]
      rw [h3]
      cases r with
      | nil => simp [causeOfR, hp]
      | cons a l =>
        rw [List.getLast?_cons_cons]
        cases hgl : (a :: l).getLast? with
        | none => exact absurd (List.getLast?_eq_none_iff.mp hgl) (List.cons_ne_nil a l)
        | some x => rfl
    | reqError =>
      obtain ⟨h1, h2, h3⟩ := ih (some (.reqError m)) lr hretr hinv
      refine ⟨by simp [orch, hp, h1], by simpa [orch, hp] using h2, ?_⟩
      simp only [orch, hp]
      rw [h3]
      cases r with
      | nil => simp [causeOfR, hp]
      | cons a l =>
        rw [List.getLast?_cons_cons]
        cases hgl : (a :: l).getLast? with
        | none => exact absurd (List.getLast?_eq_none_iff.mp hgl) (List.cons_ne_nil a l)
        | some x => rfl
    | resp st b =>
      have h4 : (st == 404) = true := by simpa [retryable, hp] using hret1
      have hinv2 : ∀ st2 b2, (some (st, b) : Option (Nat × List Char)) = some (st2, b2) → st2 = 404 := by
        intro st2 b2 he
        cases he
        exact Nat.eq_of_beq_eq_true (by simpa using h4)
      obtain ⟨h1, h2, h3⟩ := ih (some (.notFound m)) (some (st, b)) hretr hinv2
      refine ⟨by simp [orch, hp, h4, h1], by simpa [orch, hp, h4] using h2, ?_⟩
      simp only [orch, hp, h4, if_true]
      rw [h3]
      cases r with
      | nil => simp [causeOfR, hp, h4]
      | cons a l =>
        rw [List.getLast?_cons_cons]
        cases hgl : (a :: l).getLast? with
        | none => exact absurd (List.getLast?_eq_none_iff.mp hgl) (List.cons_ne_nil a l)
        | some x => rfl

/-- C2: the orchestrator tries candidates strictly in list order and each
at most once (the models tried are always a prefix of the candidate
list), a 404, a timeout or a transport error advances to the next
candidate, and when every candidate fails with such a retryable cause the
pipeline returns the all-models-failed error carrying the `last_error`
recorded for the last candidate. -/
theorem c2_fallback_order (probe : String → CallResult) (models : List String) :
    (runPipeline probe models).2 <+: models ∧
    ((∀ m ∈ models, retryable (probe m) = true) →
      (runPipeline probe models).2 = models ∧
      (runPipeline probe models).1 = .allModelsFailed (match models.getLast? with
        | none => none
        | some m => causeOfR m (probe m))) := by
  constructor
  · have hpre := orch_tried_prefix probe models none none
    unfold runPipeline
    cases hr : (orch probe models none none).1 with
    | none => simpa [hr] using hpre
    | some p =>
      obtain ⟨st, b⟩ := p
      by_cases h4 : (st == 404) = true
      · simpa [hr, h4] using hpre
      · by_cases h2 : (st == 200) = true
        · simpa [hr, h4, h2] using hpre
        · simpa [hr, h4, h2] using hpre
  · intro hret
    obtain ⟨h1, h2, h3⟩ := orch_all_retryable probe models none none hret (by intro st b h; cases h)
    constructor
    · unfold runPipeline
      cases hr : (orch probe models none none).1 with
      | none => simpa [hr] using h1
      | some p =>
        obtain ⟨st, b⟩ := p
        have h404 : st = 404 := h2 st b hr
        subst h404
        simpa [hr] using h1
    · unfold runPipeline
      cases hr : (orch probe models none none).1 with
      | none => simp [hr]; exact h3.symm.trans rfl |>.symm
      | some p =>
        obtain ⟨st, b⟩ := p
        have h404 : st = 404 := h2 st b hr
        subst h404
        simp [hr]
        exact h3.symm.trans rfl |>.symm

/-- Witness for C2: with a provider that always times out and candidates
`["a", "b"]`, both candidates are tried in order and the outcome is the
all-models-failed error carrying the timeout recorded for `"b"`. -/
theorem c2_fallback_order_witness :
    (runPipeline probeT ["a", "b"]).2 = ["a", "b"] ∧
    (runPipeline probeT ["a", "b"]).1 = .allModelsFailed (some (.timeout "b")) := by
  have h := (c2_fallback_order probeT ["a", "b"]).2 (by intro m _; rfl)
  exact ⟨h.1, h.2⟩

theorem orch_break (probe : String → CallResult) (pre : List String) :
    ∀ (c : String) (post : List String) (st : Nat) (b : List Char) (lc : Option Cause)
      (lr : Option (Nat × List Char)),
      (∀ m ∈ pre, retryable (probe m) = true) →
      probe c = .resp st b → (st == 404) = false →
      ∃ lc2, orch probe (pre ++ c :: post) lc lr = (some (st, b), lc2, pre ++ [c]) := by
  induction pre with
  | nil =>
    intro c post st b lc lr _ hp h4
    exact ⟨lc, by simp [orch, hp, h4]⟩
  | cons m r ih =>
    intro c post st b lc lr hret hp h4
    have hret1 : retryable (probe m) = true := hret m (List.mem_cons_self m r)
    have hretr : ∀ m2 ∈ r, retryable (probe m2) = true :=
      fun m2 hm => hret m2 (List.mem_cons_of_mem m hm)
    cases hq : probe m with
    | timeout =>
      obtain ⟨lc2, hh⟩ := ih c post st b (some (.timeout m)) lr hretr hp h4
      exact ⟨lc2, by simp [orch, hq, hh]⟩
    | reqError =>
      obtain ⟨lc2, hh⟩ := ih c post st b (some (.reqError m)) lr hretr hp h4
      exact ⟨lc2, by simp [orch, hq, hh]⟩
    | resp st2 b2 =>
      have hm4 : (st2 == 404) = true := by simpa [retryable, hq] using hret1
      obtain ⟨lc2, hh⟩ := ih c post st b (some (.notFound m)) (some (st2, b2)) hretr hp h4
      exact ⟨lc2, by simp [orch, hq, hm4, hh]⟩

/-- C3: when every earlier candidate failed retryably and candidate `c`
answers with a non-404 status, the loop stops at `c` (later candidates
are never tried); a 200 response hands its body to the
unwrap/extract/canonicalize stage, while any other non-404 status is
surfaced immediately as a provider error carrying that status and body. -/
theorem c3_success_and_provider_error (probe : String → CallResult) (pre : List String)
    (c : String) (post : List String) (st : Nat) (b : List Char)
    (hret : ∀ m ∈ pre, retryable (probe m) = true)
    (hp : probe c = .resp st b) (h4 : (st == 404) = false) :
    (runPipeline probe (pre ++ c :: post)).2 = pre ++ [c] ∧
    ((st == 200) = true → (runPipeline probe (pre ++ c :: post)).1 = processBody b) ∧
    ((st == 200) = false → (runPipeline probe (pre ++ c :: post)).1 = .providerError st b) := by
  obtain ⟨lc2, hh⟩ := orch_break probe pre c post st b none none hret hp h4
  refine ⟨?_, ?_, ?_⟩
  · by_cases h2 : (st == 200) = true
    · simp [runPipeline, hh, h4, h2]
    · simp [runPipeline, hh, h4, h2]
  · intro h2; simp [runPipeline, hh, h4, h2]
  · intro h2; simp [runPipeline, hh, h4, h2]

/-- Witness for C3 at a concrete provider: a single candidate answering
HTTP 503 with body `"oops"` is surfaced at once as a provider error. -/
theorem c3_success_and_provider_error_witness :
    (runPipeline probe503 ["m"]).2 = ["m"] ∧
    (runPipeline probe503 ["m"]).1 = .providerError 503 "oops".data := by
  have h := c3_success_and_provider_error probe503 [] "m" [] 503 "oops".data
    (by intro m hm; cases hm) rfl rfl
  exact ⟨h.1, h.2.2 rfl⟩

theorem extractCore_malformed_excerpt (u ex : List Char)
    (h : extractCore u = .error (.malformed ex)) : ex = u.take maxLogLen := by
  unfold extractCore at h
  cases hp : parseDoc u with
  | some v => simp only [hp] at h; exact Except.noConfusion h
  | none =>
    simp only [hp] at h
    cases hb : bracePairIdx u with
    | none => simp only [hb] at h; simp at h
    | some p =>
      obtain ⟨i, j⟩ := p
      simp only [hb] at h
      cases hq : parseDoc ((u.drop i).take (j + 1 - i)) with
      | some v => simp only [hq] at h; exact Except.noConfusion h
      | none => simp only [hq] at h; simp at h; exact h.symm

theorem extractCore_noJSON_excerpt (u ex : List Char)
    (h : extractCore u = .error (.noJSON ex)) : ex = u.take maxLogLen := by
  unfold extractCore at h
  cases hp : parseDoc u with
  | some v => simp only [hp] at h; exact Except.noConfusion h
  | none =>
    simp only [hp] at h
    cases hb : bracePairIdx u with
    | none => simp only [hb] at h; simp at h; exact h.symm
    | some p =>
      obtain ⟨i, j⟩ := p
      simp only [hb] at h
      cases hq : parseDoc ((u.drop i).take (j + 1 - i)) with
      | some v => simp only [hq] at h; exact Except.noConfusion h
      | none => simp only [hq] at h; simp at h

theorem afterUnwrap_malformed_excerpt (r : Option Json) (ai : AiV) (ex : List Char)
    (h : afterUnwrap r ai = .malformedJSON ex) : ex.length ≤ maxLogLen := by
  unfold afterUnwrap at h
  cases r with
  | some v =>
    cases hc : canonStep v with
    | ok w => simp only [hc] at h; exact Outcome.noConfusion h
    | error e => simp only [hc] at h; exact Outcome.noConfusion h
  | none =>
    cases ai with
    | j v => exact Outcome.noConfusion h
    | s t =>
      cases he : extractStage t with
      | ok v =>
        simp only [he] at h
        cases hc : canonStep v with
        | ok w => simp only [hc] at h; exact Outcome.noConfusion h
        | error e => simp only [hc] at h; exact Outcome.noConfusion h
      | error e =>
        cases e with
        | malformed e2 =>
          simp only [he] at h
          cases h
          have h2 := extractCore_malformed_excerpt (fenceStrip t) ex he
          subst h2
          simp
        | noJSON e2 => simp only [he] at h; exact Outcome.noConfusion h

theorem afterUnwrap_noJSON_excerpt (r : Option Json) (ai : AiV) (ex : List Char)
    (h : afterUnwrap r ai = .noJSONFound ex) : ex.length ≤ maxLogLen := by
  unfold afterUnwrap at h
  cases r with
  | some v =>
    cases hc : canonStep v with
    | ok w => simp only [hc] at h; exact Outcome.noConfusion h
    | error e => simp only [hc] at h; exact Outcome.noConfusion h
  | none =>
    cases ai with
    | j v => exact Outcome.noConfusion h
    | s t =>
      cases he : extractStage t with
      | ok v =>
        simp only [he] at h
        cases hc : canonStep v with
        | ok w => simp only [hc] at h; exact Outcome.noConfusion h
        | error e => simp only [hc] at h; exact Outcome.noConfusion h
      | error e =>
        cases e with
        | noJSON e2 =>
          simp only [he] at h
          cases h
          have h2 := extractCore_noJSON_excerpt (fenceStrip t) ex he
          subst h2
          simp
        | malformed e2 => simp only [he] at h; exact Outcome.noConfusion h

theorem processBody_malformed_excerpt (b ex : List Char)
    (h : processBody b = .malformedJSON ex) : ex.length ≤ maxLogLen := by
  unfold processBody at h
  cases hs : stage1 (stripL b) with
  | error e => simp only [hs] at h; exact Outcome.noConfusion h
  | ok p => simp only [hs] at h; exact afterUnwrap_malformed_excerpt p.1 p.2 ex h

theorem processBody_noJSON_excerpt (b ex : List Char)
    (h : processBody b = .noJSONFound ex) : ex.length ≤ maxLogLen := by
  unfold processBody at h
  cases hs : stage1 (stripL b) with
  | error e => simp only [hs] at h; exact Outcome.noConfusion h
  | ok p => simp only [hs] at h; exact afterUnwrap_noJSON_excerpt p.1 p.2 ex h

/-- C8 (amended): the parse-failure error paths (`MalformedJSON`,
`NoJSONFound`) bound their raw-text excerpt to at most 500 characters;
the `ProviderError` path, in contrast, carries the full provider body
(see the counterexample). -/
theorem c8_parse_excerpts_bounded (probe : String → CallResult) (models : List String)
    (ex : List Char) :
    ((runPipeline probe models).1 = .malformedJSON ex → ex.length ≤ maxLogLen) ∧
    ((runPipeline probe models).1 = .noJSONFound ex → ex.length ≤ maxLogLen) := by
  constructor <;> intro h
  · unfold runPipeline at h
    cases hr : (orch probe models none none).1 with
    | none => simp only [hr] at h; exact Outcome.noConfusion h
    | some p =>
      obtain ⟨st, b⟩ := p
      simp only [hr] at h
      by_cases h4 : (st == 404) = true
      · rw [if_pos h4] at h; exact Outcome.noConfusion h
      · rw [if_neg (by simp [h4])] at h
        by_cases h2 : (st == 200) = true
        · rw [if_pos h2] at h
          exact processBody_malformed_excerpt b ex h
        · rw [if_neg (by simp [h2])] at h; exact Outcome.noConfusion h
  · unfold runPipeline at h
    cases hr : (orch probe models none none).1 with
    | none => simp only [hr] at h; exact Outcome.noConfusion h
    | some p =>
      obtain ⟨st, b⟩ := p
      simp only [hr] at h
      by_cases h4 : (st == 404) = true
      · rw [if_pos h4] at h; exact Outcome.noConfusion h
      · rw [if_neg (by simp [h4])] at h
        by_cases h2 : (st == 200) = true
        · rw [if_pos h2] at h
          exact processBody_noJSON_excerpt b ex h
        · rw [if_neg (by simp [h2])] at h; exact Outcome.noConfusion h

/-- Counterexample for C8 as frozen: on a provider answering HTTP 500
with a 501-character body, the returned provider error carries the full
501-character body text, so not every error outcome bounds the raw text
it includes to 500 characters. -/
theorem c8_counterexample :
    (runPipeline probe500big ["m"]).1 = .providerError 500 (List.replicate 501 'x') ∧
    maxLogLen < (List.replicate 501 'x').length := by
  exact ⟨rfl, by rw [List.length_replicate]; norm_num [maxLogLen]⟩

/-- Witness for C8 at a concrete run that ends in `MalformedJSON`: the
excerpt is bounded by 500 characters. -/
theorem c8_parse_excerpts_bounded_witness :
    (runPipeline probe200mal ["m"]).1 = .malformedJSON "ab\x7b]\x7d".data ∧
    ("ab\x7b]\x7d".data).length ≤ maxLogLen := by
  refine ⟨rfl, ?_⟩
  exact (c8_parse_excerpts_bounded probe200mal ["m"] "ab\x7b]\x7d".data).1 rfl

theorem rb_ne_lb : ¬ (rb = lb) := by decide

theorem scanLoop_balanced (core : List Char) :
    ∀ (n : Nat) (acc post : List Char), depthOk n core = true →
      scanLoop (core ++ rb :: post) n acc = some (acc.reverse ++ core ++ [rb]) := by
  induction core with
  | nil =>
    intro n acc post h
    have hn : n = 1 := by simpa [depthOk] using h
    subst hn
    simp only [List.nil_append, scanLoop, if_neg rb_ne_lb, if_pos rfl]
    simp
  | cons c cs ih =>
    intro n acc post h
    by_cases hl : c = lb
    · subst hl
      rw [depthOk, if_pos rfl] at h
      have h2 := ih (n + 1) (lb :: acc) post h
      simp only [List.cons_append, scanLoop, if_pos rfl, if_true, List.append_eq]
      rw [h2]
      simp
    · by_cases hr : c = rb
      · subst hr
        rw [depthOk, if_neg rb_ne_lb, if_pos rfl] at h
        simp only [Bool.and_eq_true, decide_eq_true_eq] at h
        have hn1 : ¬ n = 1 := by omega
        have h2 := ih (n - 1) (rb :: acc) post h.2
        simp only [List.cons_append, scanLoop, if_neg rb_ne_lb, if_pos rfl, if_true, if_neg hn1, List.append_eq]
        rw [h2]
        simp
      · rw [depthOk, if_neg hl, if_neg hr] at h
        have h2 := ih n (c :: acc) post h
        simp only [List.cons_append, scanLoop, if_neg hl, if_neg hr, List.append_eq]
        rw [h2]
        simp

theorem braceScan_skips_to_first (pre : List Char) :
    ∀ rest, pre.all (fun c => !(c = lb)) = true →
      braceScan (pre ++ lb :: rest) = scanLoop rest 1 [lb] := by
  induction pre with
  | nil => intro rest _; simp [braceScan]
  | cons c cs ih =>
    intro rest h
    simp only [List.all_cons, Bool.and_eq_true, Bool.not_eq_true'] at h
    have hc : (c = lb) = False := by simp [decide_eq_false_iff_not] at h; simp [h.1]
    simp only [List.cons_append, braceScan, hc, if_false]
    exact ih rest (by simp [h.2])

set_option maxRecDepth 8000 in
/-- C6: the balanced-brace scan, started at the first opening brace of
the reasoning text, extracts exactly the whole outer object even when it
contains nested objects: for any prefix without `{`, any
balanced-with-no-early-zero interior, and any suffix, the scan returns
first brace through matching brace.  In particular, on the spec's
example body the full outer object (nested `{"nested":1}` included) is
extracted and the pipeline canonicalizes it. -/
theorem c6_balanced_scan_extracts_outer_object :
    (∀ pre core post : List Char, pre.all (fun c => !(c = lb)) = true →
      depthOk 1 core = true →
      braceScan (pre ++ lb :: (core ++ rb :: post)) = some (lb :: (core ++ [rb]))) ∧
    processBody c6Body = .ok (Json.obj
      [("a", .obj [("nested", .num 1 0)]), ("ratings", .obj []), ("passages", .obj []),
       ("bs_callout", .str "no"), ("conclusion", .str "z"), ("bs_passage", .str ""),
       ("top_passages", .arr [])]) := by
  constructor
  · intro pre core post hpre hcore
    rw [braceScan_skips_to_first pre (core ++ rb :: post) hpre]
    rw [scanLoop_balanced core 1 [lb] post hcore]
    simp
  · rfl

/-- Witness for C6 at the spec's own reasoning text, split around the
outer braces of its embedded object. -/
theorem c6_balanced_scan_extracts_outer_object_witness :
    braceScan ("thinking... ".data ++ lb ::
        ("\"a\":\x7b\"nested\":1\x7d,\"ratings\":\x7b\x7d,\"passages\":\x7b\x7d,\"bs_callout\":\"no\",\"conclusion\":\"z\"".data ++
          rb :: " done".data)) =
      some (lb ::
        ("\"a\":\x7b\"nested\":1\x7d,\"ratings\":\x7b\x7d,\"passages\":\x7b\x7d,\"bs_callout\":\"no\",\"conclusion\":\"z\"".data ++ [rb])) :=
  c6_balanced_scan_extracts_outer_object.1 "thinking... ".data
    "\"a\":\x7b\"nested\":1\x7d,\"ratings\":\x7b\x7d,\"passages\":\x7b\x7d,\"bs_callout\":\"no\",\"conclusion\":\"z\"".data
    " done".data (by decide) (by decide)

theorem scanLoop_some_ne_nil (l : List Char) :
    ∀ (n : Nat) (acc r : List Char), scanLoop l n acc = some r → r ≠ [] := by
  induction l with
  | nil => intro n acc r h; exact absurd h (by simp [scanLoop])
  | cons c cs ih =>
    intro n acc r h
    by_cases hl : c = lb
    · rw [scanLoop, if_pos hl] at h; exact ih (n + 1) (c :: acc) r h
    · by_cases hr : c = rb
      · rw [scanLoop, if_neg hl, if_pos hr] at h
        by_cases hn : n = 1
        · rw [if_pos hn] at h
          cases h
          simp
        · rw [if_neg hn] at h; exact ih (n - 1) (c :: acc) r h
      · rw [scanLoop, if_neg hl, if_neg hr] at h; exact ih n (c :: acc) r h

theorem braceScan_some_ne_nil (l : List Char) :
    ∀ r, braceScan l = some r → r ≠ [] := by
  induction l with
  | nil => intro r h; exact absurd h (by simp [braceScan])
  | cons c cs ih =>
    intro r h
    by_cases hl : c = lb
    · rw [braceScan, if_pos hl] at h; exact scanLoop_some_ne_nil cs 1 [c] r h
    · rw [braceScan, if_neg hl] at h; exact ih r h

/-- C7 (amended): an envelope whose `choices` is absent does have the
later probes consulted — with no `content` field either, a payload found
by the balanced-brace scan of `reasoning_content` becomes the new
`ai_content`.  But an envelope whose `choices` is an *empty array*
raises an IndexError that the inner handler catches: nothing propagates
to the caller, yet the remaining probes (including `reasoning_content`)
are skipped, `result` stays unset and `ai_content` stays the raw body,
so the envelope itself is re-parsed and canonicalized. -/
theorem c7_choices_empty_skips_probes (ai0 : List Char) (o : List (String × Json)) :
    (lookupJ o "choices" = some (Json.arr []) → unwrapDict o ai0 = .error .caught) ∧
    (hasKeyJ o "choices" = false → hasKeyJ o "content" = false →
      ∀ (r : String) (ex : List Char), lookupJ o "reasoning_content" = some (.str r) →
        braceScan r.data = some ex → hasAll4 o = false →
        unwrapDict o ai0 = .ok (none, .s ex)) := by
  constructor
  · intro h
    have hk : hasKeyJ o "choices" = true := by
      rw [hasKeyJ_eq_isSome, h]; rfl
    simp [unwrapDict, hk, h, pyChoicesContent, Bind.bind, Except.bind]
  · intro hch hco r ex hre hbs h4
    have hk : hasKeyJ o "reasoning_content" = true := by
      rw [hasKeyJ_eq_isSome, hre]; rfl
    have hne : ex.isEmpty = false := by
      have := braceScan_some_ne_nil r.data ex hbs
      simpa [List.isEmpty_iff] using this
    simp [unwrapDict, hch, hco, hk, hre, hbs, h4, truthyO, truthy, hne,
      Bind.bind, Except.bind, pure, Except.pure]

/-- Counterexample for C7 as frozen: on an envelope with an empty
`choices` array and a `reasoning_content` field whose payload has
`conclusion = "z"`, the pipeline returns the canonicalized *envelope*
(its `conclusion` filled with the default `"N/A"`, `choices` and
`reasoning_content` still present), not the canonicalization of the
reasoning payload, which would have kept `conclusion = "z"`. -/
theorem c7_choices_empty_skips_probes_counterexample :
    processBody c7Body = .ok (Json.obj
      [("choices", .arr []), ("reasoning_content", .str "x \x7b\"conclusion\":\"z\"\x7d y"),
       ("ratings", .obj []), ("passages", .obj []), ("conclusion", .str "N/A"),
       ("bs_callout", .str "N/A"), ("bs_passage", .str ""), ("top_passages", .arr [])]) ∧
    lookupJ
      [("choices", .arr []), ("reasoning_content", .str "x \x7b\"conclusion\":\"z\"\x7d y"),
       ("ratings", .obj []), ("passages", .obj []), ("conclusion", .str "N/A"),
       ("bs_callout", .str "N/A"), ("bs_passage", .str ""), ("top_passages", .arr [])]
      "conclusion" = some (Json.str "N/A") ∧
    lookupJ (canonicalize [("conclusion", Json.str "z")]) "conclusion" = some (Json.str "z") :=
  ⟨rfl, rfl, rfl⟩

/-- Witness for C7 at a concrete envelope without `choices`: the payload
found in `reasoning_content` becomes the new content. -/
theorem c7_choices_empty_skips_probes_witness :
    unwrapDict [("reasoning_content", Json.str "x \x7by\x7d")] [] =
      .ok (none, .s "\x7by\x7d".data) :=
  (c7_choices_empty_skips_probes [] [("reasoning_content", Json.str "x \x7by\x7d")]).2
    (by decide) (by decide) "x \x7by\x7d" "\x7by\x7d".data rfl rfl (by decide)

theorem ticksAt_none (l : List Char) (h : containsTicks l = false) : ticksAt l = none := by
  cases l with
  | nil => rfl
  | cons c cs =>
    rw [containsTicks, Bool.or_eq_false_iff] at h
    exact Option.not_isSome_iff_eq_none.mp (by simp [h.1])

theorem containsTicks_tail (c : Char) (cs : List Char)
    (h : containsTicks (c :: cs) = false) : containsTicks cs = false := by
  rw [containsTicks, Bool.or_eq_false_iff] at h
  exact h.2

theorem matchFence_none (l : List Char) (h : containsTicks l = false) :
    matchFence l = none := by
  unfold matchFence
  rw [ticksAt_none l h]

theorem match2core_none (l : List Char) (h : ticksAt l = none) : match2core l = none := by
  unfold match2core
  rw [h]

theorem match2_none (c : Char) (cs : List Char) (h : containsTicks (c :: cs) = false) :
    match2 (c :: cs) = none := by
  by_cases hn : c = '\n'
  · have h2 : match2 (c :: cs) = match2core cs := by simp [match2, hn]
    rw [h2, match2core_none cs (ticksAt_none cs (containsTicks_tail c cs h))]
  · have h2 : match2 (c :: cs) = match2core (c :: cs) := by simp [match2, hn]
    rw [h2, match2core_none (c :: cs) (ticksAt_none (c :: cs) h)]

theorem sub1F_id (fuel : Nat) :
    ∀ (b : Bool) (l : List Char), containsTicks l = false → sub1F fuel b l = l := by
  induction fuel with
  | zero => intro b l h; simp [sub1F]
  | succ f ih =>
    intro b l h
    cases l with
    | nil => rfl
    | cons c cs =>
      have hm : matchFence (c :: cs) = none := matchFence_none (c :: cs) h
      have htl : containsTicks cs = false := containsTicks_tail c cs h
      cases b with
      | true => simp only [sub1F, if_pos, hm, ih (c = '\n') cs htl]
      | false => simp only [sub1F, Bool.false_eq_true, if_false, ih (c = '\n') cs htl]

theorem sub2F_id (fuel : Nat) :
    ∀ (l : List Char), containsTicks l = false → sub2F fuel l = l := by
  induction fuel with
  | zero => intro l h; simp [sub2F]
  | succ f ih =>
    intro l h
    cases l with
    | nil => rfl
    | cons c cs =>
      have hm : match2 (c :: cs) = none := match2_none c cs h
      have htl : containsTicks cs = false := containsTicks_tail c cs h
      simp only [sub2F, hm, ih cs htl]

theorem sub1_id (l : List Char) (h : containsTicks l = false) : sub1 l = l :=
  sub1F_id (l.length + 1) true l h

theorem sub2_id (l : List Char) (h : containsTicks l = false) : sub2 l = l :=
  sub2F_id (l.length + 1) l h

theorem stripL_idem (l : List Char) : stripL (stripL l) = stripL l := by
  unfold stripL
  have h1 : (l.dropWhile isSp).dropWhile isSp = l.dropWhile isSp :=
    List.dropWhile_idempotent _ _
  have h3 : (List.rdropWhile isSp (l.dropWhile isSp)).dropWhile isSp =
      List.rdropWhile isSp (l.dropWhile isSp) := by
    obtain ⟨t, ht⟩ := List.rdropWhile_prefix isSp (l := l.dropWhile isSp)
    cases hm : List.rdropWhile isSp (l.dropWhile isSp) with
    | nil => rfl
    | cons c r =>
      rw [hm] at ht
      have hy : l.dropWhile isSp = c :: (r ++ t) := by
        rw [← ht]; simp
      have hc : ¬ isSp c = true := by
        have := List.dropWhile_eq_self_iff.mp h1
        rw [hy] at this
        simpa using this (by simp)
      simp [List.dropWhile_cons, hc]
  rw [h3, List.rdropWhile_idempotent]

/-- Counterexample for C9 as frozen: the body `[{"a":1}]` (a JSON array
containing an object) does not yield the canonicalization of the inner
object — the pipeline ends in the generic unexpected-error reply. -/
theorem c9_non_object_body_counterexample :
    processBody c9Body = .genericError ∧
    Outcome.genericError ≠ .ok (Json.obj (canonicalize [("a", Json.num 1 0)])) :=
  ⟨rfl, fun h => Outcome.noConfusion h⟩

theorem ticksAt_cons_none (c : Char) (cs : List Char) (h : ¬ c = bq) :
    ticksAt (c :: cs) = none := by
  cases cs with
  | nil => rfl
  | cons c2 cs2 =>
    cases cs2 with
    | nil => rfl
    | cons c3 cs3 => simp [ticksAt, h]

theorem containsTicks_of_all_sp (t : List Char) (h : ∀ c ∈ t, isSp c = true) :
    containsTicks t = false := by
  induction t with
  | nil => rfl
  | cons c cs ih =>
    have hc : ¬ c = bq := by
      intro he
      have := h c (List.mem_cons_self c cs)
      rw [he] at this
      exact absurd this (by decide)
    rw [containsTicks, ticksAt_cons_none c cs hc]
    simpa using ih (fun c2 hm => h c2 (List.mem_cons_of_mem c hm))

/-- C4 (amended): for every text handed to the extractor, once the direct
parse of the fence-stripped text fails: no first-`{`-before-last-`}`
pair means `NoJSONFound` (empty and whitespace-only inputs included,
hence also plain non-JSON prose without `{`), while a pair whose
substring fails to parse means `MalformedJSON` carrying the parse
diagnostic and a 500-character-bounded excerpt of the fence-stripped
text (not of the candidate substring — see the counterexample).  Text
whose direct parse succeeds (e.g. `true`) is returned as a payload
instead, contrary to the claim as frozen. -/
theorem c4_extract_failure_modes (t : List Char) :
    (parseDoc (fenceStrip t) = none → bracePairIdx (fenceStrip t) = none →
      extractStage t = .error (.noJSON ((fenceStrip t).take maxLogLen))) ∧
    (∀ i j, parseDoc (fenceStrip t) = none → bracePairIdx (fenceStrip t) = some (i, j) →
      parseDoc (((fenceStrip t).drop i).take (j + 1 - i)) = none →
      extractStage t = .error (.malformed ((fenceStrip t).take maxLogLen))) ∧
    ((∀ c ∈ t, isSp c = true) → extractStage t = .error (.noJSON [])) := by
  refine ⟨?_, ?_, ?_⟩
  · intro hp hb
    unfold extractStage extractCore
    rw [hp, hb]
  · intro i j hp hb hq
    unfold extractStage extractCore
    rw [hp, hb]
    simp only [hq]
  · intro hsp
    have ht : containsTicks t = false := containsTicks_of_all_sp t hsp
    have hstrip : stripL t = [] := by
      unfold stripL
      rw [List.dropWhile_eq_nil_iff.mpr (fun c hm => hsp c hm)]
      rfl
    have hfs : fenceStrip t = [] := by
      unfold fenceStrip
      rw [sub1_id t ht, sub2_id t ht, hstrip]
    unfold extractStage
    rw [hfs]
    rfl

/-- Counterexample for C4 as frozen: `true` has no brace pair yet the
extractor succeeds on it (direct parse wins), and for `ab{]}` the
`MalformedJSON` excerpt is the whole fence-stripped text `ab{]}`, not an
excerpt of the candidate substring `{]}`. -/
theorem c4_extract_failure_modes_counterexample :
    extractStage "true".data = .ok (Json.bool true) ∧
    extractStage "ab\x7b]\x7d".data = .error (.malformed "ab\x7b]\x7d".data) ∧
    "ab\x7b]\x7d".data ≠ ("\x7b]\x7d".data).take maxLogLen :=
  ⟨rfl, rfl, by decide⟩

/-- Witness for C4 at plain prose with no brace at all. -/
theorem c4_extract_failure_modes_witness :
    extractStage "no json here".data = .error (.noJSON "no json here".data) :=
  ((c4_extract_failure_modes "no json here".data).1 rfl rfl).trans rfl

theorem dropSpKeepLast_fst (l : List Char) :
    ∀ p, (dropSpKeepLast l p).1 = l.dropWhile isSp := by
  induction l with
  | nil => intro p; rfl
  | cons c cs ih =>
    intro p
    by_cases hc : isSp c = true
    · rw [dropSpKeepLast, if_pos hc, List.dropWhile_cons, if_pos hc]
      exact ih (some c)
    · rw [dropSpKeepLast, if_neg hc, List.dropWhile_cons, if_neg hc]

theorem dropSpKeepLast_run (w : List Char) :
    ∀ (rest : List Char) (p : Option Char), (∀ c ∈ w, isSp c = true) →
      dropSpKeepLast (w ++ '\n' :: rest) p = dropSpKeepLast rest (some '\n') := by
  induction w with
  | nil =>
    intro rest p _
    rw [List.nil_append, dropSpKeepLast, if_pos (by decide)]
  | cons c w2 ih =>
    intro rest p hw
    rw [List.cons_append, dropSpKeepLast, if_pos (hw c (List.mem_cons_self c w2))]
    exact ih rest (some c) (fun c2 hm => hw c2 (List.mem_cons_of_mem c hm))

theorem ticksAt_cons_append_none (c : Char) (cs : List Char) (d : Char) (r : List Char)
    (h : ticksAt (c :: cs) = none) (hd : ¬ d = bq) :
    ticksAt (c :: (cs ++ d :: r)) = none := by
  cases cs with
  | nil =>
    cases r with
    | nil => rfl
    | cons e r2 => simp [ticksAt, hd]
  | cons x cs2 =>
    cases cs2 with
    | nil => simp [ticksAt, hd]
    | cons y cs3 =>
      simp only [ticksAt] at h
      simpa [ticksAt] using h

theorem containsTicks_dropWhile (l : List Char) (h : containsTicks l = false) :
    containsTicks (l.dropWhile isSp) = false := by
  induction l with
  | nil => exact h
  | cons c cs ih =>
    rw [List.dropWhile_cons]
    by_cases hc : isSp c = true
    · rw [if_pos hc]; exact ih (containsTicks_tail c cs h)
    · rw [if_neg hc]; exact h

theorem containsTicks_append_single (u : List Char) (c : Char) (hc : ¬ c = bq) :
    containsTicks (u ++ [c]) = containsTicks u := by
  induction u with
  | nil =>
    rw [List.nil_append, containsTicks, containsTicks]
    cases hc2 : ticksAt [c] with
    | none => rfl
    | some r => cases c; simp [ticksAt] at hc2
  | cons a u2 ih =>
    rw [List.cons_append, containsTicks, containsTicks, ih]
    cases ht : ticksAt (a :: u2) with
    | some r =>
      cases u2 with
      | nil => simp [ticksAt] at ht
      | cons x u3 =>
        cases u3 with
        | nil => simp [ticksAt] at ht
        | cons y u4 =>
          simp only [ticksAt] at ht
          by_cases hb : a = bq ∧ x = bq ∧ y = bq
          · simp [ticksAt, hb]
          · rw [if_neg hb] at ht; cases ht
    | none =>
      rw [ticksAt_cons_append_none a u2 c [] ht hc]

theorem sub1F_ticks_only (f : Nat) : sub1F (f + 1) true [bq, bq, bq] = [] := by
  have hm : matchFence [bq, bq, bq] = some ([], false) := by
    simp [matchFence, ticksAt, dropJsonTag, dropSpKeepLast]
  simp only [sub1F, if_pos, hm]
  cases f with
  | zero => rfl
  | succ f2 => rfl

theorem sub1F_tail (fuel : Nat) :
    ∀ (b : Bool) (u : List Char), containsTicks u = false → u.length + 5 ≤ fuel →
      sub1F fuel b (u ++ '\n' :: [bq, bq, bq]) = u ++ ['\n'] := by
  induction fuel with
  | zero => intro b u _ hf; omega
  | succ f ih =>
    intro b u hu hf
    cases u with
    | nil =>
      have hm : matchFence ('\n' :: [bq, bq, bq]) = none := by
        unfold matchFence
        rw [ticksAt_cons_none '\n' [bq, bq, bq] (by decide)]
      have hstep : sub1F (f + 1) b ('\n' :: [bq, bq, bq]) =
          '\n' :: sub1F f true [bq, bq, bq] := by
        cases b with
        | true => simp [sub1F, hm]
        | false => simp [sub1F]
      rw [List.nil_append, hstep]
      cases f with
      | zero => omega
      | succ f2 => rw [sub1F_ticks_only f2]; rfl
    | cons c u2 =>
      have htop : ticksAt (c :: u2) = none := ticksAt_none _ hu
      have hta : ticksAt (c :: (u2 ++ '\n' :: [bq, bq, bq])) = none :=
        ticksAt_cons_append_none c u2 '\n' [bq, bq, bq] htop (by decide)
      have hm : matchFence (c :: (u2 ++ '\n' :: [bq, bq, bq])) = none := by
        unfold matchFence
        rw [hta]
      have hrec := ih (c = '\n') u2 (containsTicks_tail c u2 hu) (by simp at hf ⊢; omega)
      have hstep : sub1F (f + 1) b ((c :: u2) ++ '\n' :: [bq, bq, bq]) =
          c :: sub1F f (c = '\n') (u2 ++ '\n' :: [bq, bq, bq]) := by
        cases b with
        | true => simp [sub1F, hm]
        | false => simp [sub1F]
      rw [hstep, hrec]
      rfl

theorem sub1_wrap (s : List Char) (h : containsTicks s = false) :
    sub1 (wrapFence s) = (match s.dropWhile isSp with
      | [] => []
      | d :: t => (d :: t) ++ ['\n']) := by
  have hw : wrapFence s =
      bq :: bq :: bq :: 'j' :: 's' :: 'o' :: 'n' :: '\n' :: (s ++ '\n' :: [bq, bq, bq]) := by
    unfold wrapFence
    have h8 : "```json\n".data = [bq, bq, bq, 'j', 's', 'o', 'n', '\n'] := by decide
    have h4 : "\n```".data = ['\n', bq, bq, bq] := by decide
    rw [h8, h4]
    simp
  have hlen : (wrapFence s).length = s.length + 12 := by
    rw [hw]; simp
  have hmf : matchFence (bq :: bq :: bq :: 'j' :: 's' :: 'o' :: 'n' :: '\n' ::
      (s ++ '\n' :: [bq, bq, bq])) =
      some ((dropSpKeepLast ('\n' :: (s ++ '\n' :: [bq, bq, bq])) none).1,
        (dropSpKeepLast ('\n' :: (s ++ '\n' :: [bq, bq, bq])) none).2 == some '\n') := by
    unfold matchFence
    have ht : ticksAt (bq :: bq :: bq :: 'j' :: 's' :: 'o' :: 'n' :: '\n' ::
        (s ++ '\n' :: [bq, bq, bq])) =
        some ('j' :: 's' :: 'o' :: 'n' :: '\n' :: (s ++ '\n' :: [bq, bq, bq])) := by
      simp [ticksAt]
    have hj : dropJsonTag ('j' :: 's' :: 'o' :: 'n' :: '\n' :: (s ++ '\n' :: [bq, bq, bq])) =
        '\n' :: (s ++ '\n' :: [bq, bq, bq]) := by
      simp [dropJsonTag]
    simp only [ht, hj]
  have hstep : sub1 (wrapFence s) =
      sub1F (s.length + 12) ((dropSpKeepLast ('\n' :: (s ++ '\n' :: [bq, bq, bq])) none).2 == some '\n')
        (dropSpKeepLast ('\n' :: (s ++ '\n' :: [bq, bq, bq])) none).1 := by
    unfold sub1
    rw [hlen, hw]
    rw [show (s.length + 12 + 1) = (s.length + 12) + 1 from rfl]
    simp only [sub1F, if_pos, hmf]
  cases hd : s.dropWhile isSp with
  | nil =>
    have hsp : ∀ c ∈ s, isSp c = true := List.dropWhile_eq_nil_iff.mp hd
    have hrun : dropSpKeepLast ('\n' :: (s ++ '\n' :: [bq, bq, bq])) none =
        ([bq, bq, bq], some '\n') := by
      have he : '\n' :: (s ++ '\n' :: [bq, bq, bq]) = ('\n' :: s) ++ '\n' :: [bq, bq, bq] := by
        simp
      rw [he, dropSpKeepLast_run ('\n' :: s) [bq, bq, bq] none
        (by intro c hm; rcases List.mem_cons.mp hm with h1 | h2; · subst h1; decide
            · exact hsp c h2)]
      rw [dropSpKeepLast, if_neg (by decide)]
    rw [hstep, hrun]
    have : ((([bq, bq, bq], some '\n') : List Char × Option Char).2 == some '\n') = true := by decide
    rw [show ((([bq, bq, bq], some '\n') : List Char × Option Char).2 == some '\n') = true from by decide]
    rw [show s.length + 12 = (s.length + 11) + 1 from rfl]
    exact sub1F_ticks_only (s.length + 11)
  | cons d t =>
    have hfst : (dropSpKeepLast ('\n' :: (s ++ '\n' :: [bq, bq, bq])) none).1 =
        (d :: t) ++ '\n' :: [bq, bq, bq] := by
      rw [dropSpKeepLast_fst]
      rw [List.dropWhile_cons, if_pos (by decide)]
      rw [List.dropWhile_append]
      rw [hd]
      rfl
    have hct : containsTicks (d :: t) = false := by
      have := containsTicks_dropWhile s h
      rwa [hd] at this
    have hlen2 : (d :: t).length + 5 ≤ s.length + 12 := by
      have hsuf : s.dropWhile isSp <:+ s := List.dropWhile_suffix isSp
      have := hsuf.length_le
      rw [hd] at this
      omega
    rw [hstep, hfst]
    exact sub1F_tail (s.length + 12) _ (d :: t) hct hlen2

theorem ticksAt_some (l r : List Char) (h : ticksAt l = some r) : l = bq :: bq :: bq :: r := by
  cases l with
  | nil => cases h
  | cons c1 l1 =>
    cases l1 with
    | nil => cases h
    | cons c2 l2 =>
      cases l2 with
      | nil => cases h
      | cons c3 l3 =>
        by_cases hb : c1 = bq ∧ c2 = bq ∧ c3 = bq
        · obtain ⟨h1, h2, h3⟩ := hb
          subst h1
          subst h2
          subst h3
          simp only [ticksAt, if_pos, and_self] at h
          rw [← Option.some_inj.mp h]
        · simp [ticksAt, hb] at h

theorem lastNlSplit_none (run : List Char) (h : ∀ c ∈ run, ¬ c = '\n') :
    lastNlSplit run = none := by
  induction run with
  | nil => rfl
  | cons c cs ih =>
    unfold lastNlSplit
    rw [ih (fun c2 hm => h c2 (List.mem_cons_of_mem c hm))]
    rw [if_neg (h c (List.mem_cons_self c cs))]

theorem takeWhile_stop (p : Char → Bool) (w : List Char) (d : Char) (q : List Char)
    (hw : ∀ x ∈ w, p x = true) (hd : p d = false) :
    (w ++ d :: q).takeWhile p = w ∧ (w ++ d :: q).dropWhile p = d :: q := by
  induction w with
  | nil => simp [List.takeWhile_cons, List.dropWhile_cons, hd]
  | cons c w2 ih =>
    have hc : p c = true := hw c (List.mem_cons_self c w2)
    have := ih (fun x hm => hw x (List.mem_cons_of_mem c hm))
    simp only [List.cons_append, List.takeWhile_cons, List.dropWhile_cons, hc, if_true]
    exact ⟨by rw [this.1], by rw [this.2]⟩

theorem bqCtx_of_no_bq (c : List Char) (h : ∀ x ∈ c, ¬ x = bq) : bqCtx c := by
  intro a b heq
  exact absurd (h bq (by rw [heq]; exact List.mem_append_right a (List.mem_cons_self bq b))) (by simp)

theorem headNotBq_of_no_bq (c : List Char) (h : ∀ x ∈ c, ¬ x = bq) : headNotBq c := by
  intro d t heq
  exact h d (by rw [heq]; exact List.mem_cons_self d t)

theorem headNotBq_append (x y : List Char) (hx : headNotBq x) (hy : headNotBq y) :
    headNotBq (x ++ y) := by
  intro d t heq
  cases x with
  | nil => exact hy d t (by simpa using heq)
  | cons c cs =>
    rw [List.cons_append] at heq
    cases heq
    exact hx d cs rfl

theorem goodAfter_extend (b y : List Char)
    (h : ∃ d b2, b.dropWhile (fun x => x = ' ') = d :: b2 ∧ isSp d = false) :
    ∃ d b2, (b ++ y).dropWhile (fun x => x = ' ') = d :: b2 ∧ isSp d = false := by
  obtain ⟨d, b2, hdrop, hd⟩ := h
  refine ⟨d, b2 ++ y, ?_, hd⟩
  rw [List.dropWhile_append]
  rw [hdrop]
  simp

theorem bqCtx_append (x y : List Char) (hx : bqCtx x) (hy : bqCtx y) (hyh : headNotBq y) :
    bqCtx (x ++ y) := by
  intro a b heq
  rcases List.append_eq_append_iff.mp heq with ⟨a2, ha, hb⟩ | ⟨c2, hc, hd⟩
  · -- a = x ++ a2 and y = a2 ++ bq :: b : backtick inside y
    cases a2 with
    | nil => exact absurd rfl (hyh bq b (by simpa using hb))
    | cons q a3 =>
      obtain ⟨⟨aL, hL, hLn⟩, hAfter⟩ := hy (q :: a3) b hb
      refine ⟨⟨aL, ?_, hLn⟩, hAfter⟩
      rw [ha, List.getLast?_append_of_ne_nil x (List.cons_ne_nil q a3), hL]
  · -- x = a ++ c2 and bq :: b = c2 ++ y : backtick inside x (or at the head of y)
    cases c2 with
    | nil => exact absurd rfl (hyh bq b (by simpa using hd.symm))
    | cons q c3 =>
      rw [List.cons_append] at hd
      injection hd with h1 h2
      subst h1
      subst h2
      obtain ⟨hPre, hAfter⟩ := hx a c3 hc
      exact ⟨hPre, goodAfter_extend c3 y hAfter⟩

theorem bqCtx_noFenceLine (s : List Char) (h : bqCtx s) : noFenceLine s := by
  intro a b heq
  cases ht : ticksAt b with
  | none => rfl
  | some r =>
    have hb := ticksAt_some b r ht
    have hsplit : s = (a ++ ['\n']) ++ bq :: (bq :: bq :: r) := by
      rw [heq, hb]
      simp
    obtain ⟨⟨aL, hL, hLn⟩, _⟩ := h (a ++ ['\n']) (bq :: bq :: r) hsplit
    rw [List.getLast?_concat] at hL
    cases hL
    exact absurd rfl hLn

theorem headNotBq_T0 (s : List Char) (hh : headNotBq s) :
    ticksAt s = none := by
  cases ht : ticksAt s with
  | none => rfl
  | some r =>
    have hs := ticksAt_some s r ht
    exact absurd rfl (hh bq (bq :: bq :: r) hs)

theorem bqCtx_noTrailFence (s : List Char) (h : bqCtx s) : noTrailFence s := by
  intro a b heq
  cases ht : ticksAt b with
  | none => exact match2core_none b ht
  | some r =>
    have hb := ticksAt_some b r ht
    have hsplit : s = (a ++ [bq, bq]) ++ bq :: r := by
      rw [heq, hb]
      simp
    obtain ⟨_, d, b2, hdrop, hd⟩ := h (a ++ [bq, bq]) r hsplit
    have hr : r = r.takeWhile (fun x => x = ' ') ++ d :: b2 := by
      rw [← hdrop]
      exact (List.takeWhile_append_dropWhile (fun x => x = ' ') r).symm
    have hw : ∀ x ∈ r.takeWhile (fun x => x = ' '), isSp x = true := by
      intro x hm
      have := List.mem_takeWhile_imp hm
      simp only [decide_eq_true_eq] at this
      rw [this]
      decide
    have hstop := takeWhile_stop isSp (r.takeWhile (fun x => x = ' ')) d b2 hw hd
    have hafter : r.dropWhile isSp = d :: b2 := by rw [hr]; exact hstop.2
    have hrun : r.takeWhile isSp = r.takeWhile (fun x => x = ' ') := by
      conv in r.takeWhile isSp => rw [hr]
      exact hstop.1
    unfold match2core
    simp only [ht, hafter, hrun]
    simp only [List.isEmpty_cons, if_false, Bool.false_eq_true]
    rw [lastNlSplit_none (r.takeWhile (fun x => x = ' '))
      (by intro c hm
          have := List.mem_takeWhile_imp hm
          simp only [decide_eq_true_eq] at this
          rw [this]
          decide)]

theorem isSp_ge32_eq_space (ch : Char) (h1 : isSp ch = true) (h2 : ¬ ch.toNat < 32) :
    ch = ' ' := by
  unfold isSp at h1
  simp only [Bool.or_eq_true, decide_eq_true_eq] at h1
  rcases h1 with ((((h | h) | h) | h) | h) | h
  · exact h
  · subst h; exact absurd (by decide) h2
  · subst h; exact absurd (by decide) h2
  · subst h; exact absurd (by decide) h2
  · subst h; exact absurd (by decide) h2
  · subst h; exact absurd (by decide) h2

theorem hexVal_not_sp (ch : Char) (n : Nat) (h : hexVal ch = some n) : isSp ch = false := by
  cases hs : isSp ch with
  | false => rfl
  | true =>
    unfold isSp at hs
    simp only [Bool.or_eq_true, decide_eq_true_eq] at hs
    rcases hs with ((((e | e) | e) | e) | e) | e <;> (subst e; simp [hexVal] at h)

theorem getLast?_cons_of_ne_nil (x : Char) (l : List Char) (h : l ≠ []) :
    (x :: l).getLast? = l.getLast? := by
  cases l with
  | nil => exact absurd rfl h
  | cons y t => exact List.getLast?_cons_cons

theorem strStep (d cs2 rest : List Char)
    (hil : ∃ c, cs2 = c ++ rest ∧ c ≠ [] ∧ c.getLast? = some '"' ∧ spSpaceOnly c)
    (hd : spSpaceOnly d) :
    ∃ c, d ++ cs2 = c ++ rest ∧ c ≠ [] ∧ c.getLast? = some '"' ∧ spSpaceOnly c := by
  obtain ⟨c, hc, hne, hlast, hsp⟩ := hil
  refine ⟨d ++ c, by rw [hc]; simp, by simp [hne], ?_, ?_⟩
  · rw [List.getLast?_append_of_ne_nil d hne]
    exact hlast
  · intro x hm hs
    rcases List.mem_append.mp hm with h2 | h2
    · exact hd x h2 hs
    · exact hsp x h2 hs

theorem spSpaceOnly_of_no_sp (c : List Char) (h : ∀ x ∈ c, isSp x = false) :
    spSpaceOnly c := by
  intro x hm hs
  rw [h x hm] at hs
  cases hs

theorem escDecode_consumed (e : Char) (cs2 : List Char) (d : Char) (cs3 : List Char)
    (h : escDecode e cs2 = some (d, cs3)) :
    ∃ dd, cs2 = dd ++ cs3 ∧ spSpaceOnly ('\\' :: e :: dd) := by
  unfold escDecode at h
  by_cases e1 : e = '"'
  · subst e1
    rw [if_pos rfl] at h
    injection h with h2
    injection h2 with h3 h4
    subst h4
    exact ⟨[], rfl, spSpaceOnly_of_no_sp _ (by decide)⟩
  · rw [if_neg e1] at h
    by_cases e2 : e = '\\'
    · subst e2
      rw [if_pos rfl] at h
      injection h with h2
      injection h2 with h3 h4
      subst h4
      exact ⟨[], rfl, spSpaceOnly_of_no_sp _ (by decide)⟩
    · rw [if_neg e2] at h
      by_cases e3 : e = '/'
      · subst e3
        rw [if_pos rfl] at h
        injection h with h2
        injection h2 with h3 h4
        subst h4
        exact ⟨[], rfl, spSpaceOnly_of_no_sp _ (by decide)⟩
      · rw [if_neg e3] at h
        by_cases e4 : e = 'b'
        · subst e4
          rw [if_pos rfl] at h
          injection h with h2
          injection h2 with h3 h4
          subst h4
          exact ⟨[], rfl, spSpaceOnly_of_no_sp _ (by decide)⟩
        · rw [if_neg e4] at h
          by_cases e5 : e = 'f'
          · subst e5
            rw [if_pos rfl] at h
            injection h with h2
            injection h2 with h3 h4
            subst h4
            exact ⟨[], rfl, spSpaceOnly_of_no_sp _ (by decide)⟩
          · rw [if_neg e5] at h
            by_cases e6 : e = 'n'
            · subst e6
              rw [if_pos rfl] at h
              injection h with h2
              injection h2 with h3 h4
              subst h4
              exact ⟨[], rfl, spSpaceOnly_of_no_sp _ (by decide)⟩
            · rw [if_neg e6] at h
              by_cases e7 : e = 'r'
              · subst e7
                rw [if_pos rfl] at h
                injection h with h2
                injection h2 with h3 h4
                subst h4
                exact ⟨[], rfl, spSpaceOnly_of_no_sp _ (by decide)⟩
              · rw [if_neg e7] at h
                by_cases e8 : e = 't'
                · subst e8
                  rw [if_pos rfl] at h
                  injection h with h2
                  injection h2 with h3 h4
                  subst h4
                  exact ⟨[], rfl, spSpaceOnly_of_no_sp _ (by decide)⟩
                · rw [if_neg e8] at h
                  by_cases e9 : e = 'u'
                  · subst e9
                    rw [if_pos rfl] at h
                    cases cs2 with
                    | nil => simp at h
                    | cons x1 cs3a =>
                      cases cs3a with
                      | nil => simp at h
                      | cons x2 cs4 =>
                        cases cs4 with
                        | nil => simp at h
                        | cons x3 cs5 =>
                          cases cs5 with
                          | nil => simp at h
                          | cons x4 cs6 =>
                            cases hv1 : hexVal x1 with
                            | none => simp [hv1] at h
                            | some n1 =>
                              cases hv2 : hexVal x2 with
                              | none => simp [hv1, hv2] at h
                              | some n2 =>
                                cases hv3 : hexVal x3 with
                                | none => simp [hv1, hv2, hv3] at h
                                | some n3 =>
                                  cases hv4 : hexVal x4 with
                                  | none => simp [hv1, hv2, hv3, hv4] at h
                                  | some n4 =>
                                    simp only [hv1, hv2, hv3, hv4] at h
                                    split at h
                                    · exact Option.noConfusion h
                                    · injection h with h2
                                      injection h2 with h3 h4
                                      subst h4
                                      refine ⟨[x1, x2, x3, x4], rfl, ?_⟩
                                      intro x hm hs
                                      rcases List.mem_cons.mp hm with m | hm
                                      · subst m; exact absurd hs (by decide)
                                      rcases List.mem_cons.mp hm with m | hm
                                      · subst m; exact absurd hs (by decide)
                                      rcases List.mem_cons.mp hm with m | hm
                                      · rw [m, hexVal_not_sp x1 n1 hv1] at hs; cases hs
                                      rcases List.mem_cons.mp hm with m | hm
                                      · rw [m, hexVal_not_sp x2 n2 hv2] at hs; cases hs
                                      rcases List.mem_cons.mp hm with m | hm
                                      · rw [m, hexVal_not_sp x3 n3 hv3] at hs; cases hs
                                      rcases List.mem_cons.mp hm with m | hm
                                      · rw [m, hexVal_not_sp x4 n4 hv4] at hs; cases hs
                                      cases hm
                  · rw [if_neg e9] at h
                    exact Option.noConfusion h

theorem pStrAux_consumed (fuel : Nat) :
    ∀ (acc l : List Char) (s2 : String) (rest : List Char),
      pStrAux fuel acc l = some (s2, rest) →
      ∃ c, l = c ++ rest ∧ c ≠ [] ∧ c.getLast? = some '"' ∧ spSpaceOnly c := by
  induction fuel with
  | zero =>
    intro acc l s2 rest h
    simp only [pStrAux] at h
    exact Option.noConfusion h
  | succ f ih =>
    intro acc l s2 rest h
    cases l with
    | nil =>
      simp only [pStrAux] at h
      exact Option.noConfusion h
    | cons ch cs =>
      simp only [pStrAux] at h
      by_cases hq : ch = '"'
      · subst hq
        rw [if_pos rfl] at h
        injection h with h2
        injection h2 with h3 h4
        subst h4
        refine ⟨['"'], rfl, by simp, rfl, ?_⟩
        intro x hm hs
        simp only [List.mem_singleton] at hm
        subst hm
        exact absurd hs (by decide)
      · by_cases hbsl : ch = '\\'
        · subst hbsl
          rw [if_neg (by decide), if_pos rfl] at h
          cases cs with
          | nil => simp at h
          | cons e cs2 =>
            cases hdec : escDecode e cs2 with
            | none =>
              simp only [hdec] at h
              exact Option.noConfusion h
            | some p =>
              obtain ⟨d, cs3⟩ := p
              simp only [hdec] at h
              obtain ⟨dd, hcs2, hsp⟩ := escDecode_consumed e cs2 d cs3 hdec
              subst hcs2
              exact strStep ('\\' :: e :: dd) cs3 rest (ih _ cs3 s2 rest h) hsp
        · rw [if_neg hq, if_neg hbsl] at h
          by_cases h32 : ch.toNat < 32
          · rw [if_pos h32] at h
            exact Option.noConfusion h
          · rw [if_neg h32] at h
            refine strStep [ch] cs rest (ih _ cs s2 rest h) ?_
            intro x hm hs
            simp only [List.mem_singleton] at hm
            subst hm
            exact isSp_ge32_eq_space x hs h32

theorem dropSpace_head (b : List Char) (g : Char) :
    b.getLast? = some g → isSp g = false → spSpaceOnly b →
    ∃ d b2, b.dropWhile (fun x => x = ' ') = d :: b2 ∧ isSp d = false := by
  induction b with
  | nil => intro hg _ _; cases hg
  | cons x t ih =>
    intro hg hgsp hsp
    by_cases hx : x = ' '
    · subst hx
      cases t with
      | nil =>
        have hg2 : g = ' ' := by simpa using hg.symm
        subst hg2
        exact absurd hgsp (by decide)
      | cons y t2 =>
        have hg2 : (y :: t2).getLast? = some g := by
          rw [← hg]; exact List.getLast?_cons_cons.symm
        have hsp2 : spSpaceOnly (y :: t2) :=
          fun z hm hz => hsp z (List.mem_cons_of_mem _ hm) hz
        obtain ⟨d, b2, hd, hdsp⟩ := ih hg2 hgsp hsp2
        refine ⟨d, b2, ?_, hdsp⟩
        rw [List.dropWhile_cons, if_pos (by simp)]
        exact hd
    · refine ⟨x, t, ?_, ?_⟩
      · rw [List.dropWhile_cons, if_neg (by simpa using hx)]
      · cases hxsp : isSp x with
        | false => rfl
        | true => exact absurd (hsp x (List.mem_cons_self x t) hxsp) hx

theorem bqCtx_str (c : List Char) (hlast : c.getLast? = some '"') (hsp : spSpaceOnly c) :
    bqCtx ('"' :: c) := by
  intro a b heq
  cases a with
  | nil =>
    injection heq with h1 h2
    exact absurd h1 (by decide)
  | cons q a2 =>
    injection heq with h1 h2
    replace h2 : c = a2 ++ bq :: b := h2
    constructor
    · cases hgl : (q :: a2).getLast? with
      | none => exact absurd (List.getLast?_eq_none_iff.mp hgl) (List.cons_ne_nil q a2)
      | some aL =>
        refine ⟨aL, rfl, ?_⟩
        have hmem : aL ∈ q :: a2 := List.mem_of_mem_getLast? hgl
        intro he
        subst he
        rcases List.mem_cons.mp hmem with h3 | h3
        · exact absurd (h3.trans h1.symm) (by decide)
        · have hc : ('\n' : Char) ∈ c := by
            rw [h2]; exact List.mem_append_left _ h3
          exact absurd (hsp '\n' hc (by decide)) (by decide)
    · cases b with
      | nil =>
        rw [h2, List.getLast?_concat] at hlast
        injection hlast with h4
        exact absurd h4 (by decide)
      | cons b0 b1 =>
        have hbne : b0 :: b1 ≠ [] := List.cons_ne_nil b0 b1
        have hgb : (b0 :: b1).getLast? = some '"' := by
          rw [h2, List.getLast?_append_of_ne_nil a2 (List.cons_ne_nil bq (b0 :: b1)),
            getLast?_cons_of_ne_nil bq (b0 :: b1) hbne] at hlast
          exact hlast
        have hspb : spSpaceOnly (b0 :: b1) := fun z hm hz =>
          hsp z (by rw [h2]; exact List.mem_append_right a2 (List.mem_cons_of_mem bq hm)) hz
        exact dropSpace_head (b0 :: b1) '"' hgb (by decide) hspb

theorem okSeg_no_bq (w : List Char) (h : ∀ x ∈ w, ¬ x = bq) : okSeg w :=
  ⟨bqCtx_of_no_bq w h, headNotBq_of_no_bq w h⟩

theorem okSeg_append (x y : List Char) (hx : okSeg x) (hy : okSeg y) : okSeg (x ++ y) :=
  ⟨bqCtx_append x y hx.1 hy.1 hy.2, headNotBq_append x y hx.2 hy.2⟩

theorem okSeg_str (c : List Char) (hlast : c.getLast? = some '"') (hsp : spSpaceOnly c) :
    okSeg ('"' :: c) := by
  refine ⟨bqCtx_str c hlast hsp, ?_⟩
  intro d t heq
  injection heq with h1 h2
  subst h1
  decide

theorem isJWs_ne_bq (x : Char) (h : isJWs x = true) : ¬ x = bq := by
  intro e
  subst e
  exact absurd h (by decide)

theorem isJWs_isSp (x : Char) (h : isJWs x = true) : isSp x = true := by
  unfold isJWs at h
  unfold isSp
  simp only [Bool.or_eq_true, decide_eq_true_eq] at h ⊢
  tauto

theorem takeJWs_no_bq (r : List Char) : ∀ x ∈ r.takeWhile isJWs, ¬ x = bq :=
  fun x hm => isJWs_ne_bq x (List.mem_takeWhile_imp hm)

theorem skipJWs_split (r : List Char) : r = r.takeWhile isJWs ++ skipJWs r :=
  (List.takeWhile_append_dropWhile isJWs r).symm

theorem digit_not_sp (x : Char) (h : x.isDigit = true) : isSp x = false := by
  cases hs : isSp x with
  | false => rfl
  | true =>
    unfold isSp at hs
    simp only [Bool.or_eq_true, decide_eq_true_eq] at hs
    rcases hs with ((((e | e) | e) | e) | e) | e <;> (subst e; exact absurd h (by decide))

theorem digit_ne_bq (x : Char) (h : x.isDigit = true) : ¬ x = bq := by
  intro e
  subst e
  exact absurd h (by decide)

theorem numAlpha_ok (x : Char) (h : numAlpha x = true) : ¬ x = bq ∧ isSp x = false := by
  unfold numAlpha at h
  simp only [Bool.or_eq_true, decide_eq_true_eq] at h
  rcases h with ((((hd | e) | e) | e) | e) | e
  · exact ⟨digit_ne_bq x hd, digit_not_sp x hd⟩
  all_goals (subst e; exact ⟨by decide, by decide⟩)

theorem numPre_drop (l : List Char) :
    ∃ c, l = c ++ l.dropWhile Char.isDigit ∧ ∀ x ∈ c, numAlpha x = true := by
  refine ⟨l.takeWhile Char.isDigit, (List.takeWhile_append_dropWhile Char.isDigit l).symm, ?_⟩
  intro x hm
  have := List.mem_takeWhile_imp hm
  simp [numAlpha, this]

theorem pFrac_consumed (rest1 : List Char) :
    ∃ c, rest1 = c ++ (pFrac rest1).2 ∧ ∀ x ∈ c, numAlpha x = true := by
  cases rest1 with
  | nil => exact ⟨[], rfl, by simp⟩
  | cons c0 r2 =>
    by_cases hdot : c0 = '.'
    · subst hdot
      by_cases hds : (r2.takeWhile Char.isDigit).isEmpty = true
      · refine ⟨[], ?_, by simp⟩
        have hp : (pFrac ('.' :: r2)).2 = '.' :: r2 := by
          simp [pFrac, hds]
        rw [hp]
        rfl
      · refine ⟨'.' :: r2.takeWhile Char.isDigit, ?_, ?_⟩
        · have hp : (pFrac ('.' :: r2)).2 = r2.dropWhile Char.isDigit := by
            simp [pFrac, hds]
          rw [hp, List.cons_append, List.takeWhile_append_dropWhile]
        · intro x hm
          rcases List.mem_cons.mp hm with e | hm2
          · subst e; decide
          · have := List.mem_takeWhile_imp hm2
            simp [numAlpha, this]
    · refine ⟨[], ?_, by simp⟩
      have hp : (pFrac (c0 :: r2)).2 = c0 :: r2 := by
        simp [pFrac, hdot]
      rw [hp]
      rfl

theorem pExp_consumed (rest2 : List Char) :
    ∃ c, rest2 = c ++ (pExp rest2).2 ∧ ∀ x ∈ c, numAlpha x = true := by
  cases rest2 with
  | nil => exact ⟨[], rfl, by simp⟩
  | cons e r3 =>
    by_cases he : e = 'e' ∨ e = 'E'
    · have hne : numAlpha e = true := by
        rcases he with e1 | e1 <;> (subst e1; decide)
      cases r3 with
      | nil =>
        refine ⟨[], ?_, by simp⟩
        have hp : (pExp [e]).2 = [e] := by
          simp only [pExp]
          rw [if_pos he]
          simp
        rw [hp]
        rfl
      | cons a r4 =>
        by_cases hp1 : a = '+'
        · subst hp1
          by_cases hds : (r4.takeWhile Char.isDigit).isEmpty = true
          · refine ⟨[], ?_, by simp⟩
            have hp : (pExp (e :: '+' :: r4)).2 = e :: '+' :: r4 := by
              simp only [pExp]
              rw [if_pos he]
              simp [hds]
            rw [hp]
            rfl
          · refine ⟨e :: '+' :: r4.takeWhile Char.isDigit, ?_, ?_⟩
            · have hp : (pExp (e :: '+' :: r4)).2 = r4.dropWhile Char.isDigit := by
                simp only [pExp]
                rw [if_pos he]
                simp [hds]
              rw [hp, List.cons_append, List.cons_append, List.takeWhile_append_dropWhile]
            · intro x hm
              rcases List.mem_cons.mp hm with e1 | hm2
              · subst e1; exact hne
              rcases List.mem_cons.mp hm2 with e1 | hm3
              · subst e1; decide
              · have := List.mem_takeWhile_imp hm3
                simp [numAlpha, this]
        · by_cases hp2 : a = '-'
          · subst hp2
            by_cases hds : (r4.takeWhile Char.isDigit).isEmpty = true
            · refine ⟨[], ?_, by simp⟩
              have hp : (pExp (e :: '-' :: r4)).2 = e :: '-' :: r4 := by
                simp only [pExp]
                rw [if_pos he]
                simp [hds]
              rw [hp]
              rfl
            · refine ⟨e :: '-' :: r4.takeWhile Char.isDigit, ?_, ?_⟩
              · have hp : (pExp (e :: '-' :: r4)).2 = r4.dropWhile Char.isDigit := by
                  simp only [pExp]
                  rw [if_pos he]
                  simp [hds]
                rw [hp, List.cons_append, List.cons_append, List.takeWhile_append_dropWhile]
              · intro x hm
                rcases List.mem_cons.mp hm with e1 | hm2
                · subst e1; exact hne
                rcases List.mem_cons.mp hm2 with e1 | hm3
                · subst e1; decide
                · have := List.mem_takeWhile_imp hm3
                  simp [numAlpha, this]
          · by_cases hds : ((a :: r4).takeWhile Char.isDigit).isEmpty = true
            · refine ⟨[], ?_, by simp⟩
              have hp : (pExp (e :: a :: r4)).2 = e :: a :: r4 := by
                simp only [pExp]
                rw [if_pos he]
                simp [hp1, hp2, hds]
              rw [hp]
              rfl
            · refine ⟨e :: (a :: r4).takeWhile Char.isDigit, ?_, ?_⟩
              · have hp : (pExp (e :: a :: r4)).2 = (a :: r4).dropWhile Char.isDigit := by
                  simp only [pExp]
                  rw [if_pos he]
                  simp [hp1, hp2, hds]
                rw [hp, List.cons_append, List.takeWhile_append_dropWhile]
              · intro x hm
                rcases List.mem_cons.mp hm with e1 | hm2
                · subst e1; exact hne
                · have := List.mem_takeWhile_imp hm2
                  simp [numAlpha, this]
    · refine ⟨[], ?_, by simp⟩
      have hp : (pExp (e :: r3)).2 = e :: r3 := by
        simp only [pExp]
        rw [if_neg he]
      rw [hp]
      rfl

theorem pNumTail_consumed (neg : Bool) (iv : Nat) (rest1 : List Char) :
    ∃ c, rest1 = c ++ (pNumTail neg iv rest1).2 ∧ ∀ x ∈ c, numAlpha x = true := by
  have hp : (pNumTail neg iv rest1).2 = (pExp (pFrac rest1).2).2 := rfl
  rw [hp]
  obtain ⟨c1, hc1, hm1⟩ := pFrac_consumed rest1
  generalize hq : (pFrac rest1).2 = q at hc1 ⊢
  obtain ⟨c2, hc2, hm2⟩ := pExp_consumed q
  refine ⟨c1 ++ c2, ?_, ?_⟩
  · rw [hc2] at hc1
    rw [hc1, List.append_assoc]
  · intro x hm
    rcases List.mem_append.mp hm with h2 | h2
    exacts [hm1 x h2, hm2 x h2]

theorem pNum_consumed (l : List Char) (v : Json) (rest : List Char)
    (h : pNum l = some (v, rest)) :
    ∃ c, l = c ++ rest ∧ c ≠ [] ∧ ∀ x ∈ c, numAlpha x = true := by
  cases l with
  | nil => simp [pNum] at h
  | cons c0 r0 =>
    by_cases hm : c0 = '-'
    · subst hm
      cases r0 with
      | nil => simp [pNum] at h
      | cons c1 r1 =>
        by_cases h0 : c1 = '0'
        · subst h0
          have hred : pNum ('-' :: '0' :: r1) = some (pNumTail true 0 r1) := by
            simp [pNum]
          rw [hred] at h
          injection h with h2
          have hrest : (pNumTail true 0 r1).2 = rest := by rw [h2]
          obtain ⟨c, hc, hmem⟩ := pNumTail_consumed true 0 r1
          rw [hrest] at hc
          refine ⟨'-' :: '0' :: c, by rw [hc]; rfl, by simp, ?_⟩
          intro x hx
          rcases List.mem_cons.mp hx with e | hx
          · subst e; decide
          rcases List.mem_cons.mp hx with e | hx
          · subst e; decide
          · exact hmem x hx
        · by_cases hd : c1.isDigit = true
          · have hred : pNum ('-' :: c1 :: r1) =
                some (pNumTail true (digitsToNat ((c1 :: r1).takeWhile Char.isDigit))
                  ((c1 :: r1).dropWhile Char.isDigit)) := by
              simp [pNum, h0, hd]
            rw [hred] at h
            injection h with h2
            have hrest : (pNumTail true (digitsToNat ((c1 :: r1).takeWhile Char.isDigit))
                ((c1 :: r1).dropWhile Char.isDigit)).2 = rest := by rw [h2]
            obtain ⟨c, hc, hmem⟩ :=
              pNumTail_consumed true (digitsToNat ((c1 :: r1).takeWhile Char.isDigit))
                ((c1 :: r1).dropWhile Char.isDigit)
            rw [hrest] at hc
            have hA : (c1 :: r1).takeWhile Char.isDigit = c1 :: r1.takeWhile Char.isDigit := by
              rw [List.takeWhile_cons, if_pos hd]
            refine ⟨'-' :: (c1 :: r1).takeWhile Char.isDigit ++ c, ?_, by simp, ?_⟩
            · have hsplit : c1 :: r1 = (c1 :: r1).takeWhile Char.isDigit ++
                  (c1 :: r1).dropWhile Char.isDigit :=
                (List.takeWhile_append_dropWhile Char.isDigit (c1 :: r1)).symm
              have hgoal : ((c1 :: r1).takeWhile Char.isDigit ++ c) ++ rest = c1 :: r1 := by
                rw [List.append_assoc, ← hc]
                exact hsplit.symm
              exact congrArg (fun z => '-' :: z) hgoal.symm
            · intro x hx
              rcases List.mem_cons.mp hx with e | hx
              · subst e; decide
              rcases List.mem_append.mp hx with hx | hx
              · have := List.mem_takeWhile_imp hx
                simp [numAlpha, this]
              · exact hmem x hx
          · simp [pNum, h0, hd] at h
    · cases r0 with
      | nil =>
        by_cases h0 : c0 = '0'
        · subst h0
          have hred : pNum ['0'] = some (pNumTail false 0 []) := by
            simp [pNum]
          rw [hred] at h
          injection h with h2
          have hrest : (pNumTail false 0 []).2 = rest := by rw [h2]
          obtain ⟨c, hc, hmem⟩ := pNumTail_consumed false 0 []
          rw [hrest] at hc
          refine ⟨'0' :: c, by rw [hc]; rfl, by simp, ?_⟩
          intro x hx
          rcases List.mem_cons.mp hx with e | hx
          · subst e; decide
          · exact hmem x hx
        · by_cases hd : c0.isDigit = true
          · have hred : pNum [c0] = some (pNumTail false
                (digitsToNat ([c0].takeWhile Char.isDigit)) ([c0].dropWhile Char.isDigit)) := by
              simp [pNum, hm, h0, hd]
            rw [hred] at h
            injection h with h2
            have hrest : (pNumTail false (digitsToNat ([c0].takeWhile Char.isDigit))
                ([c0].dropWhile Char.isDigit)).2 = rest := by rw [h2]
            obtain ⟨c, hc, hmem⟩ := pNumTail_consumed false
              (digitsToNat ([c0].takeWhile Char.isDigit)) ([c0].dropWhile Char.isDigit)
            rw [hrest] at hc
            refine ⟨[c0].takeWhile Char.isDigit ++ c, ?_, ?_, ?_⟩
            · have hsplit : [c0] = [c0].takeWhile Char.isDigit ++
                  [c0].dropWhile Char.isDigit :=
                (List.takeWhile_append_dropWhile Char.isDigit [c0]).symm
              have hgoal : ([c0].takeWhile Char.isDigit ++ c) ++ rest = [c0] := by
                rw [List.append_assoc, ← hc]
                exact hsplit.symm
              exact hgoal.symm
            · rw [List.takeWhile_cons, if_pos hd]
              simp
            · intro x hx
              rcases List.mem_append.mp hx with hx | hx
              · have := List.mem_takeWhile_imp hx
                simp [numAlpha, this]
              · exact hmem x hx
          · simp [pNum, hm, h0, hd] at h
      | cons c1 r1 =>
        by_cases h0 : c0 = '0'
        · subst h0
          have hred : pNum ('0' :: c1 :: r1) = some (pNumTail false 0 (c1 :: r1)) := by
            simp [pNum]
          rw [hred] at h
          injection h with h2
          have hrest : (pNumTail false 0 (c1 :: r1)).2 = rest := by rw [h2]
          obtain ⟨c, hc, hmem⟩ := pNumTail_consumed false 0 (c1 :: r1)
          rw [hrest] at hc
          refine ⟨'0' :: c, by rw [hc]; rfl, by simp, ?_⟩
          intro x hx
          rcases List.mem_cons.mp hx with e | hx
          · subst e; decide
          · exact hmem x hx
        · by_cases hd : c0.isDigit = true
          · have hred : pNum (c0 :: c1 :: r1) = some (pNumTail false
                (digitsToNat ((c0 :: c1 :: r1).takeWhile Char.isDigit))
                ((c0 :: c1 :: r1).dropWhile Char.isDigit)) := by
              simp [pNum, hm, h0, hd]
            rw [hred] at h
            injection h with h2
            have hrest : (pNumTail false (digitsToNat ((c0 :: c1 :: r1).takeWhile Char.isDigit))
                ((c0 :: c1 :: r1).dropWhile Char.isDigit)).2 = rest := by rw [h2]
            obtain ⟨c, hc, hmem⟩ := pNumTail_consumed false
              (digitsToNat ((c0 :: c1 :: r1).takeWhile Char.isDigit))
              ((c0 :: c1 :: r1).dropWhile Char.isDigit)
            rw [hrest] at hc
            refine ⟨(c0 :: c1 :: r1).takeWhile Char.isDigit ++ c, ?_, ?_, ?_⟩
            · have hsplit : c0 :: c1 :: r1 = (c0 :: c1 :: r1).takeWhile Char.isDigit ++
                  (c0 :: c1 :: r1).dropWhile Char.isDigit :=
                (List.takeWhile_append_dropWhile Char.isDigit (c0 :: c1 :: r1)).symm
              have hgoal : ((c0 :: c1 :: r1).takeWhile Char.isDigit ++ c) ++ rest =
                  c0 :: c1 :: r1 := by
                rw [List.append_assoc, ← hc]
                exact hsplit.symm
              exact hgoal.symm
            · rw [List.takeWhile_cons, if_pos hd]
              simp
            · intro x hx
              rcases List.mem_append.mp hx with hx | hx
              · have := List.mem_takeWhile_imp hx
                simp [numAlpha, this]
              · exact hmem x hx
          · simp [pNum, hm, h0, hd] at h

theorem okSeg_single (g : Char) (hg : ¬ g = bq) : okSeg [g] :=
  okSeg_no_bq [g] (fun x hm => by
    simp only [List.mem_singleton] at hm
    subst hm
    exact hg)

theorem okSeg_cons (g : Char) (hg : ¬ g = bq) (t : List Char) (ht : okSeg t) :
    okSeg (g :: t) :=
  okSeg_append [g] t (okSeg_single g hg) ht

theorem skipJWs_eq (r A : List Char) (h : skipJWs r = A) :
    r = r.takeWhile isJWs ++ A := by
  rw [← h]
  exact skipJWs_split r

theorem pStep_consumed (fuel : Nat) :
    ∀ (m : PMode) (l : List Char) (v : Json) (rest : List Char),
      pStep fuel m l = some (v, rest) →
      ∃ c d t2, l = c ++ rest ∧ c = d :: t2 ∧ isSp d = false ∧ ¬ d = bq ∧ okSeg c := by
  induction fuel with
  | zero =>
    intro m l v rest h
    simp only [pStep] at h
    exact Option.noConfusion h
  | succ f ih =>
    intro m l v rest h
    cases m with
    | val =>
      simp only [pStep] at h
      split at h
      · exact Option.noConfusion h
      · rename_i ch r
        by_cases h1 : ch = '"'
        · subst h1
          rw [if_pos rfl] at h
          cases hps : pStrAux (r.length + 1) [] r with
          | none => simp only [hps] at h; exact Option.noConfusion h
          | some p =>
            obtain ⟨s, rest2⟩ := p
            simp only [hps] at h
            injection h with h2
            injection h2 with hv2 hr2
            obtain ⟨cb, hcb, hcbne, hcbl, hcbsp⟩ :=
              pStrAux_consumed (r.length + 1) [] r s rest2 hps
            refine ⟨'"' :: cb, '"', cb, ?_, rfl, by decide, by decide,
              okSeg_str cb hcbl hcbsp⟩
            rw [hcb, hr2]
            rfl
        · rw [if_neg h1] at h
          by_cases h2 : ch = lb
          · subst h2
            rw [if_pos rfl] at h
            cases hj : skipJWs r with
            | nil => simp only [hj] at h; exact Option.noConfusion h
            | cons c2 r3 =>
              simp only [hj] at h
              by_cases h3 : c2 = rb
              · rw [if_pos h3] at h
                injection h with h2b
                injection h2b with hv2 hr2
                refine ⟨lb :: (r.takeWhile isJWs ++ [c2]), lb, r.takeWhile isJWs ++ [c2],
                  ?_, rfl, by decide, by decide, ?_⟩
                · have e1 : r = r.takeWhile isJWs ++ (c2 :: r3) := skipJWs_eq r _ hj
                  rw [← hr2]
                  have e0 : lb :: r = lb :: (r.takeWhile isJWs ++ (c2 :: r3)) :=
                    congrArg (fun z => lb :: z) e1
                  rw [e0]
                  simp
                · refine okSeg_cons lb (by decide) _
                    (okSeg_append _ _ (okSeg_no_bq _ (takeJWs_no_bq r)) (okSeg_single c2 ?_))
                  rw [h3]
                  decide
              · rw [if_neg h3] at h
                obtain ⟨c', d', t', hc', hcd', hsp', hbq', hok'⟩ :=
                  ih (.objMember []) (c2 :: r3) v rest h
                refine ⟨lb :: (r.takeWhile isJWs ++ c'), lb, r.takeWhile isJWs ++ c',
                  ?_, rfl, by decide, by decide, ?_⟩
                · have e2 : skipJWs r = c' ++ rest := by rw [hj]; exact hc'
                  have e1 : r = r.takeWhile isJWs ++ (c' ++ rest) := skipJWs_eq r _ e2
                  have e0 : lb :: r = lb :: (r.takeWhile isJWs ++ (c' ++ rest)) :=
                    congrArg (fun z => lb :: z) e1
                  rw [e0]
                  simp
                · exact okSeg_cons lb (by decide) _
                    (okSeg_append _ _ (okSeg_no_bq _ (takeJWs_no_bq r)) hok')
          · rw [if_neg h2] at h
            by_cases h4 : ch = '['
            · subst h4
              rw [if_pos rfl] at h
              cases hj : skipJWs r with
              | nil => simp only [hj] at h; exact Option.noConfusion h
              | cons c2 r3 =>
                simp only [hj] at h
                by_cases h3 : c2 = ']'
                · rw [if_pos h3] at h
                  injection h with h2b
                  injection h2b with hv2 hr2
                  refine ⟨'[' :: (r.takeWhile isJWs ++ [c2]), '[', r.takeWhile isJWs ++ [c2],
                    ?_, rfl, by decide, by decide, ?_⟩
                  · have e1 : r = r.takeWhile isJWs ++ (c2 :: r3) := skipJWs_eq r _ hj
                    rw [← hr2]
                    have e0 : '[' :: r = '[' :: (r.takeWhile isJWs ++ (c2 :: r3)) :=
                      congrArg (fun z => '[' :: z) e1
                    rw [e0]
                    simp
                  · refine okSeg_cons '[' (by decide) _
                      (okSeg_append _ _ (okSeg_no_bq _ (takeJWs_no_bq r)) (okSeg_single c2 ?_))
                    rw [h3]
                    decide
                · rw [if_neg h3] at h
                  obtain ⟨c', d', t', hc', hcd', hsp', hbq', hok'⟩ :=
                    ih (.arrMember []) (c2 :: r3) v rest h
                  refine ⟨'[' :: (r.takeWhile isJWs ++ c'), '[', r.takeWhile isJWs ++ c',
                    ?_, rfl, by decide, by decide, ?_⟩
                  · have e2 : skipJWs r = c' ++ rest := by rw [hj]; exact hc'
                    have e1 : r = r.takeWhile isJWs ++ (c' ++ rest) := skipJWs_eq r _ e2
                    have e0 : '[' :: r = '[' :: (r.takeWhile isJWs ++ (c' ++ rest)) :=
                      congrArg (fun z => '[' :: z) e1
                    rw [e0]
                    simp
                  · exact okSeg_cons '[' (by decide) _
                      (okSeg_append _ _ (okSeg_no_bq _ (takeJWs_no_bq r)) hok')
            · rw [if_neg h4] at h
              by_cases h5 : ch = 't'
              · subst h5
                rw [if_pos rfl] at h
                split at h
                · rename_i t
                  injection h with h2b
                  injection h2b with hv2 hr2
                  refine ⟨['t', 'r', 'u', 'e'], 't', ['r', 'u', 'e'], ?_, rfl,
                    by decide, by decide, okSeg_no_bq _ (by decide)⟩
                  rw [← hr2]
                  rfl
                · exact Option.noConfusion h
              · rw [if_neg h5] at h
                by_cases h6 : ch = 'f'
                · subst h6
                  rw [if_pos rfl] at h
                  split at h
                  · rename_i t
                    injection h with h2b
                    injection h2b with hv2 hr2
                    refine ⟨['f', 'a', 'l', 's', 'e'], 'f', ['a', 'l', 's', 'e'], ?_, rfl,
                      by decide, by decide, okSeg_no_bq _ (by decide)⟩
                    rw [← hr2]
                    rfl
                  · exact Option.noConfusion h
                · rw [if_neg h6] at h
                  by_cases h7 : ch = 'n'
                  · subst h7
                    rw [if_pos rfl] at h
                    split at h
                    · rename_i t
                      injection h with h2b
                      injection h2b with hv2 hr2
                      refine ⟨['n', 'u', 'l', 'l'], 'n', ['u', 'l', 'l'], ?_, rfl,
                        by decide, by decide, okSeg_no_bq _ (by decide)⟩
                      rw [← hr2]
                      rfl
                    · exact Option.noConfusion h
                  · rw [if_neg h7] at h
                    by_cases h8 : ch = '-' ∨ ch.isDigit
                    · rw [if_pos h8] at h
                      obtain ⟨c, hc, hne, hmem⟩ := pNum_consumed (ch :: r) v rest h
                      cases c with
                      | nil => exact absurd rfl hne
                      | cons d0 t2 =>
                        have hh := hmem d0 (List.mem_cons_self d0 t2)
                        refine ⟨d0 :: t2, d0, t2, hc, rfl, (numAlpha_ok d0 hh).2,
                          (numAlpha_ok d0 hh).1,
                          okSeg_no_bq _ (fun x hm => (numAlpha_ok x (hmem x hm)).1)⟩
                    · rw [if_neg h8] at h
                      exact Option.noConfusion h
    | arrMember acc =>
      simp only [pStep] at h
      cases hv : pStep f .val l with
      | none => simp only [hv] at h; exact Option.noConfusion h
      | some p =>
        obtain ⟨v0, r⟩ := p
        simp only [hv] at h
        obtain ⟨cv, dv, tv, hcv, hcdv, hspv, hbqv, hokv⟩ := ih .val l v0 r hv
        cases hj : skipJWs r with
        | nil => simp only [hj] at h; exact Option.noConfusion h
        | cons c2 r2 =>
          simp only [hj] at h
          split at h
          · rename_i r2x heq
            obtain ⟨c3, d3, t3, hc3, hcd3, hsp3, hbq3, hok3⟩ :=
              ih (.arrMember (v0 :: acc)) (skipJWs r2x) v rest h
            have e4 : skipJWs r2x = c3 ++ rest := hc3
            have e3 : r2x = r2x.takeWhile isJWs ++ (c3 ++ rest) := skipJWs_eq r2x _ e4
            have e2 : skipJWs r = ',' :: (r2x.takeWhile isJWs ++ (c3 ++ rest)) := by
              rw [hj, heq]
              exact congrArg (fun z => ',' :: z) e3
            have e1 : r = r.takeWhile isJWs ++
                (',' :: (r2x.takeWhile isJWs ++ (c3 ++ rest))) := skipJWs_eq r _ e2
            have e0 : l = cv ++ (r.takeWhile isJWs ++
                (',' :: (r2x.takeWhile isJWs ++ (c3 ++ rest)))) :=
              hcv.trans (congrArg (fun z => cv ++ z) e1)
            refine ⟨cv ++ (r.takeWhile isJWs ++ (',' :: (r2x.takeWhile isJWs ++ c3))), dv,
              tv ++ (r.takeWhile isJWs ++ (',' :: (r2x.takeWhile isJWs ++ c3))), ?_, ?_,
              hspv, hbqv, ?_⟩
            · rw [e0]
              simp
            · rw [hcdv]
              rfl
            · exact okSeg_append _ _ hokv
                (okSeg_append _ _ (okSeg_no_bq _ (takeJWs_no_bq r))
                  (okSeg_cons ',' (by decide) _
                    (okSeg_append _ _ (okSeg_no_bq _ (takeJWs_no_bq r2x)) hok3)))
          · rename_i a b hcne heq
            by_cases hbr : a = ']'
            · rw [if_pos hbr] at h
              injection h with h2b
              injection h2b with hv2 hr2
              have e2 : skipJWs r = a :: b := by rw [hj]; exact heq
              have e1 : r = r.takeWhile isJWs ++ (a :: b) := skipJWs_eq r _ e2
              have e0 : l = cv ++ (r.takeWhile isJWs ++ (a :: b)) :=
                hcv.trans (congrArg (fun z => cv ++ z) e1)
              refine ⟨cv ++ (r.takeWhile isJWs ++ [a]), dv,
                tv ++ (r.takeWhile isJWs ++ [a]), ?_, ?_, hspv, hbqv, ?_⟩
              · rw [e0, ← hr2]
                simp
              · rw [hcdv]
                rfl
              · refine okSeg_append _ _ hokv
                  (okSeg_append _ _ (okSeg_no_bq _ (takeJWs_no_bq r)) (okSeg_single a ?_))
                rw [hbr]
                decide
            · rw [if_neg hbr] at h
              exact Option.noConfusion h
          · exact Option.noConfusion h
    | objMember acc =>
      simp only [pStep] at h
      split at h
      · rename_i r
        cases hps : pStrAux (r.length + 1) [] r with
        | none => simp only [hps] at h; exact Option.noConfusion h
        | some p =>
          obtain ⟨k, r1⟩ := p
          simp only [hps] at h
          obtain ⟨cb, hcb, hcbne, hcbl, hcbsp⟩ :=
            pStrAux_consumed (r.length + 1) [] r k r1 hps
          split at h
          · rename_i r2 heq1
            cases hv2 : pStep f .val (skipJWs r2) with
            | none => simp only [hv2] at h; exact Option.noConfusion h
            | some p2 =>
              obtain ⟨v0, r3⟩ := p2
              simp only [hv2] at h
              obtain ⟨cv, dv, tv, hcv, hcdv, hspv, hbqv, hokv⟩ :=
                ih .val (skipJWs r2) v0 r3 hv2
              split at h
              · rename_i r4 heq2
                split at h
                · rename_i r5 heq3
                  obtain ⟨c6, d6, t6, hc6, hcd6, hsp6, hbq6, hok6⟩ :=
                    ih (.objMember (insertKey acc k v0)) ('"' :: r5) v rest h
                  have e6 : skipJWs r4 = c6 ++ rest := heq3.trans hc6
                  have e5 : r4 = r4.takeWhile isJWs ++ (c6 ++ rest) := skipJWs_eq r4 _ e6
                  have e4 : skipJWs r3 = ',' :: (r4.takeWhile isJWs ++ (c6 ++ rest)) :=
                    heq2.trans (congrArg (fun z => ',' :: z) e5)
                  have e3 : r3 = r3.takeWhile isJWs ++
                      (',' :: (r4.takeWhile isJWs ++ (c6 ++ rest))) := skipJWs_eq r3 _ e4
                  have e2x : skipJWs r2 = cv ++ (r3.takeWhile isJWs ++
                      (',' :: (r4.takeWhile isJWs ++ (c6 ++ rest)))) :=
                    hcv.trans (congrArg (fun z => cv ++ z) e3)
                  have e2 : r2 = r2.takeWhile isJWs ++ (cv ++ (r3.takeWhile isJWs ++
                      (',' :: (r4.takeWhile isJWs ++ (c6 ++ rest))))) := skipJWs_eq r2 _ e2x
                  have e1x : skipJWs r1 = ':' :: (r2.takeWhile isJWs ++ (cv ++
                      (r3.takeWhile isJWs ++ (',' :: (r4.takeWhile isJWs ++
                      (c6 ++ rest)))))) := heq1.trans (congrArg (fun z => ':' :: z) e2)
                  have e1 : r1 = r1.takeWhile isJWs ++ (':' :: (r2.takeWhile isJWs ++ (cv ++
                      (r3.takeWhile isJWs ++ (',' :: (r4.takeWhile isJWs ++
                      (c6 ++ rest))))))) := skipJWs_eq r1 _ e1x
                  have e0 : r = cb ++ (r1.takeWhile isJWs ++ (':' :: (r2.takeWhile isJWs ++
                      (cv ++ (r3.takeWhile isJWs ++ (',' :: (r4.takeWhile isJWs ++
                      (c6 ++ rest)))))))) := hcb.trans (congrArg (fun z => cb ++ z) e1)
                  refine ⟨'"' :: (cb ++ (r1.takeWhile isJWs ++ (':' :: (r2.takeWhile isJWs ++
                    (cv ++ (r3.takeWhile isJWs ++ (',' :: (r4.takeWhile isJWs ++ c6)))))))),
                    '"', cb ++ (r1.takeWhile isJWs ++ (':' :: (r2.takeWhile isJWs ++
                    (cv ++ (r3.takeWhile isJWs ++ (',' :: (r4.takeWhile isJWs ++ c6))))))),
                    ?_, rfl, by decide, by decide, ?_⟩
                  · rw [e0]
                    simp
                  · exact okSeg_append _ _ (okSeg_str cb hcbl hcbsp)
                      (okSeg_append _ _ (okSeg_no_bq _ (takeJWs_no_bq r1))
                        (okSeg_cons ':' (by decide) _
                          (okSeg_append _ _ (okSeg_no_bq _ (takeJWs_no_bq r2))
                            (okSeg_append _ _ hokv
                              (okSeg_append _ _ (okSeg_no_bq _ (takeJWs_no_bq r3))
                                (okSeg_cons ',' (by decide) _
                                  (okSeg_append _ _ (okSeg_no_bq _ (takeJWs_no_bq r4))
                                    hok6)))))))
                · exact Option.noConfusion h
              · rename_i a b hcne heq2
                by_cases hbr : a = rb
                · rw [if_pos hbr] at h
                  injection h with h2b
                  injection h2b with hv2b hr2b
                  have e4 : skipJWs r3 = a :: b := heq2
                  have e3 : r3 = r3.takeWhile isJWs ++ (a :: b) := skipJWs_eq r3 _ e4
                  have e2x : skipJWs r2 = cv ++ (r3.takeWhile isJWs ++ (a :: b)) :=
                    hcv.trans (congrArg (fun z => cv ++ z) e3)
                  have e2 : r2 = r2.takeWhile isJWs ++ (cv ++ (r3.takeWhile isJWs ++
                      (a :: b))) := skipJWs_eq r2 _ e2x
                  have e1x : skipJWs r1 = ':' :: (r2.takeWhile isJWs ++ (cv ++
                      (r3.takeWhile isJWs ++ (a :: b)))) :=
                    heq1.trans (congrArg (fun z => ':' :: z) e2)
                  have e1 : r1 = r1.takeWhile isJWs ++ (':' :: (r2.takeWhile isJWs ++ (cv ++
                      (r3.takeWhile isJWs ++ (a :: b))))) := skipJWs_eq r1 _ e1x
                  have e0 : r = cb ++ (r1.takeWhile isJWs ++ (':' :: (r2.takeWhile isJWs ++
                      (cv ++ (r3.takeWhile isJWs ++ (a :: b)))))) :=
                    hcb.trans (congrArg (fun z => cb ++ z) e1)
                  refine ⟨'"' :: (cb ++ (r1.takeWhile isJWs ++ (':' :: (r2.takeWhile isJWs ++
                    (cv ++ (r3.takeWhile isJWs ++ [a])))))), '"',
                    cb ++ (r1.takeWhile isJWs ++ (':' :: (r2.takeWhile isJWs ++
                    (cv ++ (r3.takeWhile isJWs ++ [a]))))),
                    ?_, rfl, by decide, by decide, ?_⟩
                  · rw [e0, ← hr2b]
                    simp
                  · refine okSeg_append _ _ (okSeg_str cb hcbl hcbsp)
                      (okSeg_append _ _ (okSeg_no_bq _ (takeJWs_no_bq r1))
                        (okSeg_cons ':' (by decide) _
                          (okSeg_append _ _ (okSeg_no_bq _ (takeJWs_no_bq r2))
                            (okSeg_append _ _ hokv
                              (okSeg_append _ _ (okSeg_no_bq _ (takeJWs_no_bq r3))
                                (okSeg_single a ?_))))))
                    rw [hbr]
                    decide
                · rw [if_neg hbr] at h
                  exact Option.noConfusion h
              · exact Option.noConfusion h
          · exact Option.noConfusion h
      · exact Option.noConfusion h

theorem parseDoc_lex (s : List Char) (v : Json) (h : parseDoc s = some v) :
    bqCtx s ∧ headNotBq s ∧ ∃ d t, s.dropWhile isSp = d :: t ∧ ¬ d = bq := by
  unfold parseDoc at h
  cases hv : pStep (2 * s.length + 8) .val (skipJWs s) with
  | none => rw [hv] at h; exact Option.noConfusion h
  | some p =>
    obtain ⟨v0, rest⟩ := p
    simp only [hv] at h
    by_cases hre : (skipJWs rest).isEmpty = true
    · obtain ⟨c, d, t2, hc, hcd, hspd, hbqd, hok⟩ :=
        pStep_consumed (2 * s.length + 8) .val (skipJWs s) v0 rest hv
      have hrw : ∀ x ∈ rest, isJWs x = true := by
        have hnil : skipJWs rest = [] := by
          cases hsk : skipJWs rest with
          | nil => rfl
          | cons a b => rw [hsk] at hre; simp at hre
        exact List.dropWhile_eq_nil_iff.mp hnil
      have hsplit : s = s.takeWhile isJWs ++ (c ++ rest) := skipJWs_eq s _ hc
      have hokS : okSeg s := by
        rw [hsplit]
        exact okSeg_append _ _ (okSeg_no_bq _ (takeJWs_no_bq s))
          (okSeg_append _ _ hok (okSeg_no_bq _ (fun x hm => isJWs_ne_bq x (hrw x hm))))
      refine ⟨hokS.1, hokS.2, d, t2 ++ rest, ?_, hbqd⟩
      have hw0 : (s.takeWhile isJWs).dropWhile isSp = [] :=
        List.dropWhile_eq_nil_iff.mpr (fun x hm => isJWs_isSp x (List.mem_takeWhile_imp hm))
      conv_lhs => rw [hsplit]
      rw [List.dropWhile_append, hw0,
        if_pos (show ([] : List Char).isEmpty = true from rfl), hcd, List.cons_append,
        List.dropWhile_cons, if_neg (by simp [hspd])]
    · rw [if_neg hre] at h
      exact Option.noConfusion h

theorem noFenceLine_suffix (u y a : List Char) (h : noFenceLine u) (ha : u = a ++ y) :
    noFenceLine y := by
  intro a2 b2 heq
  exact h (a ++ a2) b2 (by rw [ha, heq, List.append_assoc])

theorem noTrailFence_suffix (u y a : List Char) (h : noTrailFence u) (ha : u = a ++ y) :
    noTrailFence y := by
  intro a2 b2 heq
  exact h (a ++ a2) b2 (by rw [ha, heq, List.append_assoc])

theorem noFenceLine_tail (c : Char) (cs : List Char) (h : noFenceLine (c :: cs)) :
    noFenceLine cs :=
  noFenceLine_suffix (c :: cs) cs [c] h rfl

theorem noTrailFence_tail (c : Char) (cs : List Char) (h : noTrailFence (c :: cs)) :
    noTrailFence cs :=
  noTrailFence_suffix (c :: cs) cs [c] h rfl

theorem sub1F_id2 (fuel : Nat) :
    ∀ (b : Bool) (u : List Char), noFenceLine u → (b = true → ticksAt u = none) →
      sub1F fuel b u = u := by
  induction fuel with
  | zero => intro b u _ _; simp [sub1F]
  | succ f ih =>
    intro b u hNF hT
    cases u with
    | nil => rfl
    | cons c cs =>
      have hT2 : decide (c = '\n') = true → ticksAt cs = none := by
        intro hdec
        have hc := of_decide_eq_true hdec
        exact hNF [] cs (by rw [hc]; rfl)
      have hrec := ih (decide (c = '\n')) cs (noFenceLine_tail c cs hNF) hT2
      cases b with
      | true =>
        have hm : matchFence (c :: cs) = none := by
          unfold matchFence
          rw [hT rfl]
        simp only [sub1F, if_pos, hm, hrec]
      | false =>
        simp only [sub1F, Bool.false_eq_true, if_false, hrec]

theorem sub1_id2 (s : List Char) (hNF : noFenceLine s) (hT : ticksAt s = none) :
    sub1 s = s :=
  sub1F_id2 (s.length + 1) true s hNF (fun _ => hT)

theorem sub2F_id2 (fuel : Nat) :
    ∀ (u : List Char), noTrailFence u → sub2F fuel u = u := by
  induction fuel with
  | zero => intro u _; simp [sub2F]
  | succ f ih =>
    intro u hTF
    cases u with
    | nil => rfl
    | cons c cs =>
      have hm : match2 (c :: cs) = none := by
        by_cases hn : c = '\n'
        · have h2 : match2 (c :: cs) = match2core cs := by simp [match2, hn]
          rw [h2]
          exact hTF [c] cs rfl
        · have h2 : match2 (c :: cs) = match2core (c :: cs) := by simp [match2, hn]
          rw [h2]
          exact hTF [] (c :: cs) rfl
      simp only [sub2F, hm, ih cs (noTrailFence_tail c cs hTF)]

theorem sub2_id2 (s : List Char) (hTF : noTrailFence s) : sub2 s = s :=
  sub2F_id2 (s.length + 1) s hTF

theorem ticksAt_append_nl (y : List Char) (h : ticksAt y = none) :
    ticksAt (y ++ ['\n']) = none := by
  cases y with
  | nil => rfl
  | cons c1 y1 =>
    cases y1 with
    | nil => rfl
    | cons c2 y2 =>
      cases y2 with
      | nil =>
        simp only [List.cons_append, List.nil_append, ticksAt]
        rw [if_neg]
        rintro ⟨_, _, h3⟩
        exact absurd h3 (by decide)
      | cons c3 y3 =>
        simp only [ticksAt, List.cons_append] at h ⊢
        by_cases hcond : c1 = bq ∧ c2 = bq ∧ c3 = bq
        · rw [if_pos hcond] at h
          exact Option.noConfusion h
        · rw [if_neg hcond]

theorem match2core_append_nl (y : List Char) (h : match2core y = none) :
    match2core (y ++ ['\n']) = none := by
  cases ht : ticksAt y with
  | none =>
    unfold match2core
    rw [ticksAt_append_nl y ht]
  | some r =>
    have hy := ticksAt_some y r ht
    have ht2 : ticksAt (y ++ ['\n']) = some (r ++ ['\n']) := by
      rw [hy]
      simp [ticksAt]
    unfold match2core at h
    simp only [ht] at h
    by_cases hae : (r.dropWhile isSp).isEmpty = true
    · rw [if_pos hae] at h
      exact Option.noConfusion h
    · rw [if_neg hae] at h
      cases hdr : r.dropWhile isSp with
      | nil => rw [hdr] at hae; simp at hae
      | cons dd after2 =>
        have hrsplit : r = r.takeWhile isSp ++ (dd :: after2) := by
          rw [← hdr]
          exact (List.takeWhile_append_dropWhile isSp r).symm
        have hddn : ¬ isSp dd = true := by
          have h1 : (r.dropWhile isSp).dropWhile isSp = r.dropWhile isSp :=
            List.dropWhile_idempotent _ _
          rw [hdr] at h1
          have := List.dropWhile_eq_self_iff.mp h1
          simpa using this (by simp)
        have hwsp : ∀ x ∈ r.takeWhile isSp, isSp x = true :=
          fun x hm => List.mem_takeWhile_imp hm
        have hstop := takeWhile_stop isSp (r.takeWhile isSp) dd (after2 ++ ['\n']) hwsp
          (by cases hv : isSp dd with | false => rfl | true => exact absurd hv hddn)
        have hr2 : r ++ ['\n'] = r.takeWhile isSp ++ (dd :: (after2 ++ ['\n'])) := by
          conv_lhs => rw [hrsplit]
          simp
        cases hln : lastNlSplit (r.takeWhile isSp) with
        | some s2 =>
          rw [hln] at h
          exact Option.noConfusion h
        | none =>
          unfold match2core
          simp only [ht2]
          rw [hr2, hstop.2, hstop.1, hln]
          simp

theorem noTrailFence_concat (u : List Char) (h : noTrailFence u) :
    noTrailFence (u ++ ['\n']) := by
  intro a b heq
  cases hb : b with
  | nil => rfl
  | cons b0 b1 =>
    have hbne : b ≠ [] := by rw [hb]; exact List.cons_ne_nil b0 b1
    have hbsplit : b = b.dropLast ++ [b.getLast hbne] := (List.dropLast_append_getLast hbne).symm
    have heq2 : u ++ ['\n'] = (a ++ b.dropLast) ++ [b.getLast hbne] := by
      rw [heq, List.append_assoc, ← hbsplit]
    have hrev := congrArg List.reverse heq2
    rw [List.reverse_append, List.reverse_append] at hrev
    simp only [List.reverse_singleton, List.singleton_append] at hrev
    injection hrev with hrv1 hrv2
    have hu : u = a ++ b.dropLast := by
      have := congrArg List.reverse hrv2
      simpa using this
    have hmc : match2core b.dropLast = none := h a b.dropLast hu
    have hbn : b = b.dropLast ++ ['\n'] := by
      rw [← hrv1] at hbsplit
      exact hbsplit
    rw [hb] at hbn hmc
    rw [hbn]
    exact match2core_append_nl (b0 :: b1).dropLast hmc

theorem sub1F_tail2 (fuel : Nat) :
    ∀ (b : Bool) (u : List Char), noFenceLine u → (b = true → ticksAt u = none) →
      u.length + 5 ≤ fuel → sub1F fuel b (u ++ '\n' :: [bq, bq, bq]) = u ++ ['\n'] := by
  induction fuel with
  | zero => intro b u _ _ hf; omega
  | succ f ih =>
    intro b u hNF hT hf
    cases u with
    | nil =>
      have hm : matchFence ('\n' :: [bq, bq, bq]) = none := by
        unfold matchFence
        rw [ticksAt_cons_none '\n' [bq, bq, bq] (by decide)]
      have hstep : sub1F (f + 1) b ('\n' :: [bq, bq, bq]) =
          '\n' :: sub1F f true [bq, bq, bq] := by
        cases b with
        | true => simp [sub1F, hm]
        | false => simp [sub1F]
      rw [List.nil_append, hstep]
      cases f with
      | zero => omega
      | succ f2 => rw [sub1F_ticks_only f2]; rfl
    | cons c u2 =>
      have hT2 : decide (c = '\n') = true → ticksAt u2 = none := by
        intro hdec
        have hc := of_decide_eq_true hdec
        exact hNF [] u2 (by rw [hc]; rfl)
      have hrec := ih (decide (c = '\n')) u2 (noFenceLine_tail c u2 hNF) hT2
        (by simp at hf ⊢; omega)
      have hstep : sub1F (f + 1) b ((c :: u2) ++ '\n' :: [bq, bq, bq]) =
          c :: sub1F f (decide (c = '\n')) (u2 ++ '\n' :: [bq, bq, bq]) := by
        cases b with
        | true =>
          have htop : ticksAt (c :: u2) = none := hT rfl
          have hta : ticksAt (c :: (u2 ++ '\n' :: [bq, bq, bq])) = none :=
            ticksAt_cons_append_none c u2 '\n' [bq, bq, bq] htop (by decide)
          have hm : matchFence (c :: (u2 ++ '\n' :: [bq, bq, bq])) = none := by
            unfold matchFence
            rw [hta]
          simp [sub1F, hm]
        | false => simp [sub1F]
      rw [hstep, hrec]
      rfl

theorem sub1_wrap2 (s : List Char) (d : Char) (t : List Char)
    (hNF : noFenceLine s) (hd : s.dropWhile isSp = d :: t) (hdb : ¬ d = bq) :
    sub1 (wrapFence s) = (d :: t) ++ ['\n'] := by
  have hw : wrapFence s =
      bq :: bq :: bq :: 'j' :: 's' :: 'o' :: 'n' :: '\n' :: (s ++ '\n' :: [bq, bq, bq]) := by
    unfold wrapFence
    have h8 : "```json\n".data = [bq, bq, bq, 'j', 's', 'o', 'n', '\n'] := by decide
    have h4 : "\n```".data = ['\n', bq, bq, bq] := by decide
    rw [h8, h4]
    simp
  have hlen : (wrapFence s).length = s.length + 12 := by
    rw [hw]; simp
  have hmf : matchFence (bq :: bq :: bq :: 'j' :: 's' :: 'o' :: 'n' :: '\n' ::
      (s ++ '\n' :: [bq, bq, bq])) =
      some ((dropSpKeepLast ('\n' :: (s ++ '\n' :: [bq, bq, bq])) none).1,
        (dropSpKeepLast ('\n' :: (s ++ '\n' :: [bq, bq, bq])) none).2 == some '\n') := by
    unfold matchFence
    have ht : ticksAt (bq :: bq :: bq :: 'j' :: 's' :: 'o' :: 'n' :: '\n' ::
        (s ++ '\n' :: [bq, bq, bq])) =
        some ('j' :: 's' :: 'o' :: 'n' :: '\n' :: (s ++ '\n' :: [bq, bq, bq])) := by
      simp [ticksAt]
    have hj : dropJsonTag ('j' :: 's' :: 'o' :: 'n' :: '\n' :: (s ++ '\n' :: [bq, bq, bq])) =
        '\n' :: (s ++ '\n' :: [bq, bq, bq]) := by
      simp [dropJsonTag]
    simp only [ht, hj]
  have hstep : sub1 (wrapFence s) =
      sub1F (s.length + 12)
        ((dropSpKeepLast ('\n' :: (s ++ '\n' :: [bq, bq, bq])) none).2 == some '\n')
        (dropSpKeepLast ('\n' :: (s ++ '\n' :: [bq, bq, bq])) none).1 := by
    unfold sub1
    rw [hlen, hw]
    rw [show (s.length + 12 + 1) = (s.length + 12) + 1 from rfl]
    simp only [sub1F, if_pos, hmf]
  have hfst : (dropSpKeepLast ('\n' :: (s ++ '\n' :: [bq, bq, bq])) none).1 =
      (d :: t) ++ '\n' :: [bq, bq, bq] := by
    rw [dropSpKeepLast_fst]
    rw [List.dropWhile_cons, if_pos (by decide)]
    rw [List.dropWhile_append]
    rw [hd]
    rfl
  have hNFdt : noFenceLine (d :: t) := by
    obtain ⟨a, ha⟩ := (List.dropWhile_suffix isSp (l := s))
    exact noFenceLine_suffix s (d :: t) a hNF (by rw [← ha, hd])
  have hTdt : ∀ b2 : Bool, b2 = true → ticksAt (d :: t) = none :=
    fun _ _ => ticksAt_cons_none d t hdb
  have hlen2 : (d :: t).length + 5 ≤ s.length + 12 := by
    have hsuf : s.dropWhile isSp <:+ s := List.dropWhile_suffix isSp
    have := hsuf.length_le
    rw [hd] at this
    omega
  rw [hstep, hfst]
  exact sub1F_tail2 (s.length + 12) _ (d :: t) hNFdt (hTdt _) hlen2

/-- C5: for every text that is a parseable JSON document (in particular
every JSON object document, including one containing ``` inside its
string literals), applying the extractor to the text wrapped in a
markdown code fence tagged `json` gives exactly the same outcome as
applying it to the unwrapped text — the wrapper's single leading and
trailing fences are stripped — and on the unwrapped text both `re.sub`
passes are the identity (the stripping step never fails when no fence is
present): in a parseable document backticks occur only inside string
literals, whose strict-mode lexical grammar keeps them off line starts
and away from end-of-string whitespace tails. -/
theorem c5_fence_wrap_equivalence (s : List Char) (v : Json) (h : parseDoc s = some v) :
    sub1 s = s ∧ sub2 s = s ∧ extractStage (wrapFence s) = extractStage s := by
  obtain ⟨hbq, hhnb, d, t, hd, hdb⟩ := parseDoc_lex s v h
  have hNF : noFenceLine s := bqCtx_noFenceLine s hbq
  have hTF : noTrailFence s := bqCtx_noTrailFence s hbq
  have hT0 : ticksAt s = none := headNotBq_T0 s hhnb
  refine ⟨sub1_id2 s hNF hT0, sub2_id2 s hTF, ?_⟩
  unfold extractStage
  suffices hfs : fenceStrip (wrapFence s) = fenceStrip s by rw [hfs]
  unfold fenceStrip
  rw [sub1_wrap2 s d t hNF hd hdb, sub1_id2 s hNF hT0, sub2_id2 s hTF]
  have hTFdt : noTrailFence (d :: t) := by
    obtain ⟨a, ha⟩ := (List.dropWhile_suffix isSp (l := s))
    exact noTrailFence_suffix s (d :: t) a hTF (by rw [← ha, hd])
  rw [sub2_id2 ((d :: t) ++ ['\n']) (noTrailFence_concat (d :: t) hTFdt)]
  have hnd : ¬ isSp d = true := by
    have h1 : (d :: t).dropWhile isSp = d :: t := by
      have := List.dropWhile_idempotent isSp s
      rwa [hd] at this
    have := List.dropWhile_eq_self_iff.mp h1
    simpa using this (by simp)
  unfold stripL
  rw [hd, List.cons_append, List.dropWhile_cons, if_neg hnd]
  rw [show d :: (t ++ ['\n']) = (d :: t) ++ ['\n'] from by simp]
  rw [List.rdropWhile_concat_pos isSp (d :: t) '\n' (by decide)]

/-- Witness for C5 at the concrete JSON object text with a ``` marker
inside its string literal: it parses, and wrapped in a ```json fence it
extracts to the same parsed object. -/
theorem c5_fence_wrap_equivalence_witness :
    extractStage (wrapFence "\x7b\"a\":\"``` x\"\x7d".data) =
      extractStage "\x7b\"a\":\"``` x\"\x7d".data ∧
    extractStage "\x7b\"a\":\"``` x\"\x7d".data =
      .ok (Json.obj [("a", Json.str "``` x")]) :=
  ⟨(c5_fence_wrap_equivalence "\x7b\"a\":\"``` x\"\x7d".data
      (Json.obj [("a", Json.str "``` x")]) rfl).2.2, rfl⟩

/-- C9 (amended): when the stripped body parses to a non-object value,
the envelope step passes the text through with no result set; the
extractor's direct re-parse then succeeds on the same text (the
first-`{`/last-`}` heuristic is never reached, and the fence passes are
the identity on any parseable document), and the field-filling step
applies Python `in` to the non-object: element membership for an array,
substring test for a string — a value passing all six field-name checks
is returned unchanged with HTTP 200, while any other non-object
(including every scalar, and the array `[{"a":1}]` of the frozen claim)
makes the item assignment raise a TypeError that only the outer generic
handler catches, yielding the generic unexpected-error reply. -/
theorem c9_non_object_body (raw : List Char) (v : Json)
    (hp : parseDoc (stripL raw) = some v) (ho : ∀ o, v ≠ Json.obj o) :
    stage1 (stripL raw) = .ok (none, .s (stripL raw)) ∧
    processBody raw =
      (match canonStep v with | .ok w => .ok w | .error _ => .genericError) ∧
    (∀ l, v = .arr l →
      processBody raw =
        (if (canonDefaults.map (fun kv => kv.1)).all
            (fun f => l.any (fun e => match e with | .str s2 => s2 == f | _ => false))
         then .ok (.arr l) else .genericError)) ∧
    (∀ s2, v = .str s2 →
      processBody raw =
        (if (canonDefaults.map (fun kv => kv.1)).all (fun f => containsSub f.data s2.data)
         then .ok (.str s2) else .genericError)) ∧
    ((∀ l, v ≠ .arr l) → (∀ s2, v ≠ .str s2) → processBody raw = .genericError) := by
  obtain ⟨hbq, hhnb, -⟩ := parseDoc_lex (stripL raw) v hp
  have hs : stage1 (stripL raw) = .ok (none, .s (stripL raw)) := by
    unfold stage1
    rw [hp]
    cases v with
    | obj o => exact absurd rfl (ho o)
    | null => rfl
    | bool b => rfl
    | num m e => rfl
    | str s => rfl
    | arr l => rfl
  have hex : extractStage (stripL raw) = .ok v := by
    unfold extractStage fenceStrip
    rw [sub1_id2 (stripL raw) (bqCtx_noFenceLine _ hbq) (headNotBq_T0 _ hhnb),
      sub2_id2 (stripL raw) (bqCtx_noTrailFence _ hbq), stripL_idem raw]
    unfold extractCore
    rw [hp]
  have hmain : processBody raw =
      (match canonStep v with | .ok w => Outcome.ok w | .error _ => .genericError) := by
    unfold processBody
    simp only [hs]
    have hanone : afterUnwrap none (.s (stripL raw)) =
        (match extractStage (stripL raw) with
          | .ok v2 =>
            (match canonStep v2 with | .ok w => Outcome.ok w | .error _ => .genericError)
          | .error (.malformed ex) => .malformedJSON ex
          | .error (.noJSON ex) => .noJSONFound ex) := rfl
    rw [hanone, hex]
  refine ⟨hs, hmain, ?_, ?_, ?_⟩
  · intro l hv
    subst hv
    rw [hmain]
    by_cases hc : (canonDefaults.map (fun kv => kv.1)).all
        (fun f => l.any (fun e => match e with | .str s2 => s2 == f | _ => false)) = true
    · have hcs : canonStep (.arr l) = .ok (.arr l) := by
        simp only [canonStep]
        rw [if_pos hc]
      simp only [hcs]
      rw [if_pos hc]
    · have hcs : canonStep (.arr l) = .error () := by
        simp only [canonStep]
        rw [if_neg hc]
      simp only [hcs]
      rw [if_neg hc]
  · intro s2 hv
    subst hv
    rw [hmain]
    by_cases hc : (canonDefaults.map (fun kv => kv.1)).all
        (fun f => containsSub f.data s2.data) = true
    · have hcs : canonStep (.str s2) = .ok (.str s2) := by
        simp only [canonStep]
        rw [if_pos hc]
      simp only [hcs]
      rw [if_pos hc]
    · have hcs : canonStep (.str s2) = .error () := by
        simp only [canonStep]
        rw [if_neg hc]
      simp only [hcs]
      rw [if_neg hc]
  · intro hna hns
    rw [hmain]
    cases v with
    | obj o => exact absurd rfl (ho o)
    | arr l => exact absurd rfl (hna l)
    | str s2 => exact absurd rfl (hns s2)
    | null => rfl
    | bool b => rfl
    | num m e => rfl

/-- Witness for C9 at two concrete bodies exhibiting both sides of the
dichotomy: `[1]` fails the membership checks and ends in the generic
unexpected-error reply, while the array listing all six field names as
strings passes them and is returned unchanged. -/
theorem c9_non_object_body_witness :
    processBody "[1]".data = .genericError ∧
    processBody "[\"ratings\",\"passages\",\"conclusion\",\"bs_callout\",\"bs_passage\",\"top_passages\"]".data =
      .ok (Json.arr [.str "ratings", .str "passages", .str "conclusion", .str "bs_callout",
        .str "bs_passage", .str "top_passages"]) := by
  constructor
  · have h := c9_non_object_body "[1]".data (Json.arr [Json.num 1 0]) rfl
      (fun o he => Json.noConfusion he)
    exact (h.2.2.1 [Json.num 1 0] rfl).trans rfl
  · have h := c9_non_object_body
      "[\"ratings\",\"passages\",\"conclusion\",\"bs_callout\",\"bs_passage\",\"top_passages\"]".data
      (Json.arr [.str "ratings", .str "passages", .str "conclusion", .str "bs_callout",
        .str "bs_passage", .str "top_passages"]) rfl
      (fun o he => Json.noConfusion he)
    exact (h.2.2.1 [.str "ratings", .str "passages", .str "conclusion", .str "bs_callout",
      .str "bs_passage", .str "top_passages"] rfl).trans rfl
